import Mathlib

/-!
# wigglyserver: the render pipeline of `src/server/main.go`

A shallow embedding of `Page.save`, `loadPage`, `Page.render` and
`markdownToHTML`, with the properties of the page store, of the script block
locator, of block execution and of the substitution pass.

Text is a list of characters.  The pattern of `Page.render` consists of ASCII
literals and of `.` under the flag `s`, which accepts every character (Go reads
an invalid byte as one character of width one), so positions of matches in the
list are the positions of the matches in the Go string.

The third-party libraries are parameters of the embedding: the Lua interpreter
(`Interpreter`), the markup library (`MarkdownLib`).  The part of the Lua state
that `Page.render` itself manipulates through the stack API (the value stack
and the table of globals) is explicit.
-/

namespace Wiggly

/-- Go `string` and `[]byte`. -/
abbrev Text := List Char

/-! ## The regular expression of `Page.render` -/

/-- The node kinds of the pattern `(?s)```script\n(.*?)```` . -/
inductive Node where
  /-- A literal string. -/
  | lit (s : Text)
  /-- The capture group `(.*?)` under flag `s`: any characters, as few as possible. -/
  | lazyAnyGroup
  deriving DecidableEq, Repr

/-- Regular expression: a concatenation of nodes. -/
abbrev Regexp := List Node

/-- One match: the matched text, the texts of the capture groups in order, and
the text that follows the match. -/
structure Match where
  whole : Text
  groups : List Text
  rest : Text
  deriving DecidableEq, Repr

/-- Leftmost-first search: the continuation `k` is tried at the current position
and, when it fails, one character further on.  Returns the characters stepped
over and the result of `k`.  It serves both the unanchored search for the start
of a match (leftmost start wins) and the non-greedy star (fewest characters
win). -/
def scan {α : Type} (k : Text → Option α) : Text → Option (Text × α)
  | [] => (k []).map fun r => ([], r)
  | c :: cs =>
    match k (c :: cs) with
    | some r => some ([], r)
    | none => (scan k cs).map fun p => (c :: p.1, p.2)

/-- Anchored match of a pattern at the start of the text, with the preference
order of Go's `regexp` (leftmost-first, as a backtracking matcher). -/
def matchAt : Regexp → Text → Option Match
  | [], s => some ⟨[], [], s⟩
  | .lit t :: ns, s =>
    if t.isPrefixOf s then
      (matchAt ns (s.drop t.length)).map fun m => ⟨t ++ m.whole, m.groups, m.rest⟩
    else none
  | .lazyAnyGroup :: ns, s =>
    (scan (matchAt ns) s).map fun p => ⟨p.1 ++ p.2.whole, p.1 :: p.2.groups, p.2.rest⟩

/-- The delimiter character, U+0060. -/
def tick : Char := '\x60'

/-- The triple delimiter. -/
def fence : Text := [tick, tick, tick]

/-- The opening delimiter with the tag and the line end: "```script\n". -/
def openFence : Text := [tick, tick, tick, 's', 'c', 'r', 'i', 'p', 't', '\n']

/-- Line 65: `regexp.MustCompile("(?s)```script\n(.*?)```")`. -/
def scriptRe : Regexp := [.lit openFence, .lazyAnyGroup, .lit fence]

/-- Leftmost match of the pattern in the text: the text before the match and
the match. -/
def findMatch (re : Regexp) (s : Text) : Option (Text × Match) :=
  scan (matchAt re) s

/-- Go `(*Regexp).FindStringSubmatch`: the matched text followed by the capture
groups, or nil (the empty slice) when there is no match. -/
def findStringSubmatch (re : Regexp) (s : Text) : List Text :=
  match findMatch re s with
  | none => []
  | some (_, m) => m.whole :: m.groups

/-- The loop of Go `(*Regexp).ReplaceAllStringFunc` with a callback that
updates a state and may fail (a run-time panic is `none`).  Each round searches
the leftmost match in what is left of the source, copies the text before it,
appends the callback's result for the matched text and goes on after the match.
The round counter bounds the loop as Go's `searchPos <= len(src)` does; running
out of rounds is `none`.  Go treats a match of the empty string apart; the
pattern of this program matches at least thirteen characters, so that case
does not arise. -/
def replaceAllLoop {σ : Type} (re : Regexp) (repl : σ → Text → Option (σ × Text)) :
    Nat → Text → σ → Option (σ × Text)
  | 0, _, _ => none
  | n + 1, src, st =>
    match findMatch re src with
    | none => some (st, src)
    | some (before, m) =>
      match repl st m.whole with
      | none => none
      | some (st1, out) =>
        (replaceAllLoop re repl n m.rest st1).map fun r => (r.1, before ++ out ++ r.2)

/-- Go `(*Regexp).ReplaceAllStringFunc`. -/
def replaceAllStringFunc {σ : Type} (re : Regexp) (src : Text)
    (repl : σ → Text → Option (σ × Text)) (st : σ) : Option (σ × Text) :=
  replaceAllLoop re repl (src.length + 1) src st

/-! ## The Lua state and the stack API used by `Page.render` -/

/-- Lua values, as far as `Page.render` creates them; every other value is a
reference into the interpreter's own heap. -/
inductive LValue where
  | str (s : Text)
  | table (fields : List (Text × LValue))
  /-- A Go function: the `print` of the block with this ordinal, which appends
  to that block's output buffer. -/
  | goFunction (sink : Nat)
  | other (ref : Nat)

/-- The state `*lua.State`: the value stack (top first), the globals (latest
binding first) and the rest of the interpreter's memory. -/
structure LState (H : Type) where
  stack : List LValue
  globals : List (Text × LValue)
  heap : H

/-- Replace the element at a position of a list. -/
def modifyAt {α : Type} (f : α → α) : Nat → List α → List α
  | _, [] => []
  | 0, a :: as => f a :: as
  | n + 1, a :: as => a :: modifyAt f n as

/-- The assignment `t[k] = v` on a value: on a table the field is bound. -/
def LValue.setKey (k : Text) (v : LValue) : LValue → LValue
  | .table fs => .table ((k, v) :: fs)
  | x => x

/-- The field `k` of a value. -/
def LValue.field (k : Text) : LValue → Option LValue
  | .table fs => fs.lookup k
  | _ => none

/-- Go `l.NewTable()`: pushes an empty table. -/
def LState.newTable {H : Type} (l : LState H) : LState H :=
  { l with stack := .table [] :: l.stack }

/-- Go `l.PushString(s)`. -/
def LState.pushString {H : Type} (l : LState H) (s : Text) : LState H :=
  { l with stack := .str s :: l.stack }

/-- Go `l.PushGoFunction(f)`. -/
def LState.pushGoFunction {H : Type} (l : LState H) (sink : Nat) : LState H :=
  { l with stack := .goFunction sink :: l.stack }

/-- Go `l.SetField(index, k)`: `t[k] = v` where `v` is the top of the stack and
`t` the value at `index` (negative: counted from the top, positive: from the
bottom); pops `v`. -/
def LState.setField {H : Type} (l : LState H) (index : Int) (k : Text) : LState H :=
  match l.stack with
  | [] => l
  | v :: rest =>
    let fromTop : Nat := if index < 0 then index.natAbs - 1 else l.stack.length - index.natAbs
    { l with stack := if fromTop = 0 then rest else modifyAt (LValue.setKey k v) (fromTop - 1) rest }

/-- Go `l.SetGlobal(name)`: pops a value and binds the global to it. -/
def LState.setGlobal {H : Type} (l : LState H) (name : Text) : LState H :=
  match l.stack with
  | [] => l
  | v :: rest => { l with stack := rest, globals := (name, v) :: l.globals }

/-- Go `l.Register(name, f)`: `PushGoFunction(f)` then `SetGlobal(name)`. -/
def LState.register {H : Type} (l : LState H) (name : Text) (sink : Nat) : LState H :=
  (l.pushGoFunction sink).setGlobal name

/-- The value of a global. -/
def LState.global {H : Type} (l : LState H) (name : Text) : Option LValue :=
  l.globals.lookup name

/-- What one `lua.DoString` call did: the external world and the Lua state it
left, the strings that the Go function registered for this block received (in
order, each already checked by `lua.CheckString`), and the error it returned. -/
structure Outcome (W H : Type) where
  world : W
  lstate : LState H
  written : List Text
  err : Option Text

/-- The Lua library `github.com/Shopify/go-lua`.  `W` is the world outside the
process that the opened standard libraries (`io`, `os`) can read and change. -/
structure Interpreter (W H : Type) where
  /-- Go `lua.NewState()`. -/
  newState : LState H
  /-- Go `lua.OpenLibraries(l)`. -/
  openLibraries : LState H → LState H
  /-- Go `lua.DoString(l, script)`. -/
  doString : W → LState H → Text → Outcome W H

/-! ## The markup library and `markdownToHTML` -/

/-- The library `github.com/gomarkdown/markdown` with document trees `D`. -/
structure MarkdownLib (D : Type) where
  commonExtensions : Nat
  autoHeadingIDs : Nat
  noEmptyLineBeforeBlock : Nat
  commonFlags : Nat
  hrefTargetBlank : Nat
  /-- Go `parser.NewWithExtensions(extensions).Parse(md)`. -/
  parse : Nat → Text → D
  /-- Go `markdown.Render(doc, html.NewRenderer(html.RendererOptions{Flags: flags}))`. -/
  render : Nat → D → Text

/-- Lines 95-105. -/
def markdownToHTML {D : Type} (lib : MarkdownLib D) (md : Text) : Text :=
  let extensions := lib.commonExtensions ||| lib.autoHeadingIDs ||| lib.noEmptyLineBeforeBlock
  let doc := lib.parse extensions md
  let htmlFlags := lib.commonFlags ||| lib.hrefTargetBlank
  lib.render htmlFlags doc

/-! ## Pages and `Page.render` -/

/-- Lines 18-21. -/
structure Page where
  Title : Text
  Body : Text
  deriving DecidableEq, Repr

/-- Record of one execution of the replacement callback (not in the program:
it is kept to state what each block saw and did). -/
structure Run (W H : Type) where
  /-- The external world when the callback was entered. -/
  entryWorld : W
  /-- The Lua state when the callback was entered. -/
  entry : LState H
  /-- The source handed to `lua.DoString`. -/
  source : Text
  outcome : Outcome W H
  /-- The string the callback returned. -/
  result : Text

/-- What the closure of `Page.render` captures, and the record of the runs. -/
structure RenderState (W H : Type) where
  world : W
  lstate : LState H
  log : List (Run W H)

/-- Lines 77-79: what the registered `print` does to the `strings.Builder`. -/
def printTo (output : Text) (str : Text) : Text :=
  (output ++ str) ++ ['\n']

/-- Go `strings.TrimSuffix`. -/
def trimSuffix (s suffix : Text) : Text :=
  if suffix.isSuffixOf s then s.take (s.length - suffix.length) else s

/-- The text of `fmt.Sprintf("Error executing script: %v", err)` before the error. -/
def errorPrefix : Text := "Error executing script: ".toList

/-- Lines 73-89: one block is executed.  `sink` is the ordinal of the block in
this render; it names the `strings.Builder` and the `print` closure that line
74 and line 75 create for this block. -/
def execBlock {W H : Type} (lua : Interpreter W H) (sink : Nat) (w : W) (l : LState H)
    (script : Text) : Run W H :=
  let l1 := l.register "print".toList sink
  let o := lua.doString w l1 script
  let output := o.written.foldl printTo []
  let result :=
    match o.err with
    | some e => errorPrefix ++ e
    | none => trimSuffix output ['\n']
  ⟨w, l, script, o, result⟩

/-- Lines 73-89 on the closure state: the block is executed, the interpreter
state it left is the closure's state from now on. -/
def runBlock {W H : Type} (lua : Interpreter W H) (st : RenderState W H) (script : Text) :
    RenderState W H × Text :=
  let run := execBlock lua st.log.length st.world st.lstate script
  ({ world := run.outcome.world, lstate := run.outcome.lstate, log := st.log ++ [run] },
    run.result)

/-- Lines 69-90: the replacement callback.  `re.FindStringSubmatch(match)[1]`
panics (here `none`) when the slice has no element 1. -/
def callback {W H : Type} (lua : Interpreter W H) (st : RenderState W H) (mtch : Text) :
    Option (RenderState W H × Text) :=
  match (findStringSubmatch scriptRe mtch)[1]? with
  | none => none
  | some script => some (runBlock lua st script)

/-- Lines 38-62: the state in which the first block starts. -/
def initState {W H : Type} (lua : Interpreter W H) (title : Text) : LState H :=
  let l := lua.newState
  let l := lua.openLibraries l
  let l := l.newTable
  let l := l.pushString title
  let l := l.setField (-2) "title".toList
  l.setGlobal "page".toList

/-- Lines 38-90 of `Page.render`: the final closure state and the text that is
handed to `markdownToHTML`; `none` is a run-time panic. -/
def Page.substitute {W H : Type} (lua : Interpreter W H) (w : W) (p : Page) :
    Option (RenderState W H × Text) :=
  replaceAllStringFunc scriptRe p.Body (callback lua) ⟨w, initState lua p.Title, []⟩

/-- Result of `Page.render`: the bytes returned, and the world and record left. -/
structure Rendered (W H : Type) where
  html : Text
  world : W
  log : List (Run W H)

/-- Lines 37-93. -/
def Page.render {W H D : Type} (lib : MarkdownLib D) (lua : Interpreter W H) (w : W) (p : Page) :
    Option (Rendered W H) :=
  (p.substitute lua w).map fun r => ⟨markdownToHTML lib r.2, r.1.world, r.1.log⟩

/-! ## Calls of `Page.render` that run alongside each other

Each request is served by its own call of `Page.render`.  A call owns its Lua
state; the world outside the process is common to the calls.  Two calls that
run alongside each other are modelled by an interleaving of the rounds of
their replacement loops. -/

/-- A call of `Page.render` between two rounds of the replacement loop of lines
69-90: the text of the body still to search, the text built so far, the call's
own Lua state and the record of its runs. -/
structure Call (W H : Type) where
  src : Text
  out : Text
  lstate : LState H
  log : List (Run W H)

/-- The call when it reaches line 69. -/
def Call.start {W H : Type} (lua : Interpreter W H) (p : Page) : Call W H :=
  ⟨p.Body, [], initState lua p.Title, []⟩

/-- One round of the replacement loop of the call, in the world as it is now:
the leftmost match in the text still to search is handed to the callback of
lines 69-90, the text before it and the callback's result are appended.  When
no match is left the call has nothing more to execute. -/
def Call.step {W H : Type} (lua : Interpreter W H) (w : W) (c : Call W H) : W × Call W H :=
  match findMatch scriptRe c.src with
  | none => (w, c)
  | some (before, m) =>
    match callback lua ⟨w, c.lstate, c.log⟩ m.whole with
    | none => (w, c)
    | some (st1, res) => (st1.world, ⟨m.rest, c.out ++ before ++ res, st1.lstate, st1.log⟩)

/-- The text that the call hands to `markdownToHTML` once no match is left. -/
def Call.text {W H : Type} (c : Call W H) : Text := c.out ++ c.src

/-- The text that the call hands to `markdownToHTML` when it runs the rest of
its replacement loop with no other call in between, from the world `w`. -/
def Call.finish {W H : Type} (lua : Interpreter W H) (w : W) (c : Call W H) : Option Text :=
  (replaceAllStringFunc scriptRe c.src (callback lua) ⟨w, c.lstate, c.log⟩).map
    fun r => c.out ++ r.2

/-- Two calls run alongside each other: the schedule says which call does its
next round (`true` the first, `false` the second); the world is common. -/
def interleave {W H : Type} (lua : Interpreter W H) :
    List Bool → W → Call W H → Call W H → W × Call W H × Call W H
  | [], w, a, b => (w, a, b)
  | true :: sch, w, a, b => interleave lua sch (a.step lua w).1 (a.step lua w).2 b
  | false :: sch, w, a, b => interleave lua sch (b.step lua w).1 a (b.step lua w).2

/-! ## The page store -/

/-- Lines 107-109. -/
structure Environment where
  PagesDirectory : Text
  deriving DecidableEq, Repr

/-- Lines 119-121. -/
def Env : Environment := ⟨['.']⟩

/-- Lines 111-116, with `os.Getenv` as a function. -/
def Environment.load (e : Environment) (getenv : Text → Text) : Environment :=
  let envPagesDirectory := getenv "PAGES_DIR".toList
  if envPagesDirectory ≠ [] then { e with PagesDirectory := envPagesDirectory } else e

/-- An explicit file store: the content of each file by name, the names that
cannot be written, and the path separator of the platform. -/
structure FileStore where
  files : Text → Option Text
  denied : Text → Bool
  pathSeparator : Char

/-- Go `os.WriteFile(name, data, perm)`: the error, or the store after the write. -/
def FileStore.writeFile (fs : FileStore) (name data : Text) : Except Text FileStore :=
  if fs.denied name then .error ("open ".toList ++ name ++ ": permission denied".toList)
  else .ok { fs with files := fun n => if n = name then some data else fs.files n }

/-- Go `os.ReadFile(name)`. -/
def FileStore.readFile (fs : FileStore) (name : Text) : Except Text Text :=
  match fs.files name with
  | some data => .ok data
  | none => .error ("open ".toList ++ name ++ ": no such file or directory".toList)

/-- Lines 23-26. -/
def Page.save (env : Environment) (fs : FileStore) (p : Page) : Except Text FileStore :=
  let filename := env.PagesDirectory ++ [fs.pathSeparator] ++ p.Title ++ ".md".toList
  fs.writeFile filename p.Body

/-- Lines 28-35. -/
def loadPage (env : Environment) (fs : FileStore) (title : Text) : Except Text Page :=
  let filename := env.PagesDirectory ++ [fs.pathSeparator] ++ title ++ ".md".toList
  match fs.readFile filename with
  | .error err => .error err
  | .ok body => .ok { Title := title, Body := body }

/-- The interpreter cut off from the world: every chunk runs as if the world
were `w0`, and leaves the world it was given. -/
def Interpreter.closed {W H : Type} (lua : Interpreter W H) (w0 : W) : Interpreter W H where
  newState := lua.newState
  openLibraries := lua.openLibraries
  doString := fun w l script => { lua.doString w0 l script with world := w }

/-! ## Notions used in the statements -/

/-- A located script block: the text between the end of the previous block (the
start of the body for the first one) and the opening delimiter of this block,
and the inner source. -/
structure Block where
  before : Text
  inner : Text
  deriving DecidableEq, Repr

/-- The full span of a block: opening delimiter, inner source, closing delimiter. -/
def Block.span (b : Block) : Text := openFence ++ b.inner ++ fence

/-- The script block locator: the successive leftmost matches of the pattern
in the text (as Go `FindAllStringSubmatch` reports them), and the text after
the last match. -/
def locateLoop : Nat → Text → List Block × Text
  | 0, s => ([], s)
  | n + 1, s =>
    match findMatch scriptRe s with
    | none => ([], s)
    | some (before, m) =>
      let r := locateLoop n m.rest
      (⟨before, m.groups.headD []⟩ :: r.1, r.2)

/-- The blocks of a body in document order, and the text after the last block. -/
def locate (body : Text) : List Block × Text :=
  locateLoop (body.length + 1) body

/-- The text made of the blocks' preceding texts, each followed by the text
given for that block, and of the final text. -/
def assemble : List Block → List Text → Text → Text
  | b :: bs, t :: ts, tail => b.before ++ t ++ assemble bs ts tail
  | _, _, tail => tail

/-- Sequential execution of sources: each one starts in the world and the Lua
state that the one before left. -/
def execAll {W H : Type} (lua : Interpreter W H) : Nat → W → LState H → List Text → List (Run W H)
  | _, _, _, [] => []
  | n, w, l, s :: ss =>
    let r := execBlock lua n w l s
    r :: execAll lua (n + 1) r.outcome.world r.outcome.lstate ss

/-- The world after the runs, from the world `w`. -/
def endWorld {W H : Type} : W → List (Run W H) → W
  | w, [] => w
  | _, r :: rs => endWorld r.outcome.world rs

/-- The Lua state after the runs, from the state `l`. -/
def endLState {W H : Type} : LState H → List (Run W H) → LState H
  | l, [] => l
  | _, r :: rs => endLState r.outcome.lstate rs

/-- The runs form a chain from the world `w` and the Lua state `l`: each run is
entered in the world and the state that the run before left. -/
def Chained {W H : Type} : W → LState H → List (Run W H) → Prop
  | _, _, [] => True
  | w, l, r :: rs => r.entryWorld = w ∧ r.entry = l ∧ Chained r.outcome.world r.outcome.lstate rs

/-- The runs form a chain of Lua states from `l`: each run is entered in the Lua
state that the run before left. -/
def LChained {W H : Type} : LState H → List (Run W H) → Prop
  | _, [] => True
  | l, r :: rs => r.entry = l ∧ LChained r.outcome.lstate rs

/-- What holds of a call of the page with this title at every moment: its runs
form a chain of Lua states from the state built from the title, its Lua state
is the one its last run left, and each run is the interpreter's execution of
the run's source in the state of entry with `print` bound to the run's buffer. -/
def OwnState {W H : Type} (lua : Interpreter W H) (title : Text) (c : Call W H) : Prop :=
  LChained (initState lua title) c.log ∧
  c.lstate = endLState (initState lua title) c.log ∧
  ∀ (i : Nat) (run : Run W H), c.log[i]? = some run →
    run.outcome = lua.doString run.entryWorld (run.entry.register "print".toList i) run.source

/-- The text is at the start of a line when this text precedes it. -/
@[reducible] def AtLineStart (pre : Text) : Prop := pre = [] ∨ pre.getLast? = some '\n'

/-- The text is at the end of a line when this text follows it. -/
@[reducible] def AtLineEnd (post : Text) : Prop := post = [] ∨ post.head? = some '\n'

/-- No position before the end of `g` is accepted by `k` in the text `g ++ t`. -/
def NoEarlier {α : Type} (k : Text → Option α) (g t : Text) : Prop :=
  ∀ a b, g = a ++ b → b ≠ [] → k (b ++ t) = none

/-- The occurrence of `p` after `g` in `g ++ p ++ r` is the first one: every
occurrence of `p` in that text starts at or after the end of `g`. -/
def FirstAt (p g r : Text) : Prop :=
  ∀ a b, g ++ p ++ r = a ++ p ++ b → g.length ≤ a.length

/-! ## A small interpreter

An interpreter for a fragment of Lua, line by line, that instantiates
`Interpreter` in examples.  Its world is the list of the names of the files
that exist. -/

namespace Toy

/-- The text between a given prefix and a given suffix. -/
def unwrap (pre suf s : Text) : Option Text :=
  if pre.isPrefixOf s && suf.isSuffixOf s && decide (pre.length + suf.length ≤ s.length) then
    some ((s.drop pre.length).take (s.length - pre.length - suf.length))
  else none

/-- The lines of a text. -/
def lines : Text → List Text
  | [] => [[]]
  | c :: cs =>
    if c = '\n' then [] :: lines cs
    else
      match lines cs with
      | [] => [[c]]
      | l :: ls => (c :: l) :: ls

/-- Identifier of letters. -/
def isName (t : Text) : Bool := !t.isEmpty && t.all Char.isAlpha

/-- Content of a string literal without escapes. -/
def isPlain (t : Text) : Bool := t.all fun c => c != '"'

/-- State of a chunk under execution. -/
structure St where
  world : List Text
  lstate : LState Unit
  written : List Text

/-- The statement `print(e)` once `e` is evaluated: the global `print` is called. -/
def callPrint (st : St) (arg : Option Text) : Except Text St :=
  match st.lstate.global "print".toList with
  | some (.goFunction _) =>
    match arg with
    | some t => .ok { st with written := st.written ++ [t] }
    | none => .error "bad argument #1 to 'print' (string expected)".toList
  | _ => .error "attempt to call global 'print'".toList

/-- One statement. -/
def step (st : St) (line : Text) : Except Text St :=
  if line = [] then .ok st else
  match unwrap "os.remove(\"".toList "\")".toList line with
  | some f => .ok { st with world := st.world.filter fun g => g != f }
  | none =>
  match unwrap "print(io.open(\"".toList "\") and \"y\" or \"n\")".toList line with
  | some f => callPrint st (some (if st.world.contains f then ['y'] else ['n']))
  | none =>
  match unwrap "print(\"".toList "\")".toList line with
  | some t => if isPlain t then callPrint st (some t) else .error "syntax error".toList
  | none =>
  if line = "print(page.title)".toList then
    match (st.lstate.global "page".toList).bind (LValue.field "title".toList) with
    | some (.str t) => callPrint st (some t)
    | _ => callPrint st none
  else
  match unwrap "print(".toList ")".toList line with
  | some n =>
    if isName n then
      match st.lstate.global n with
      | some (.str t) => callPrint st (some t)
      | _ => callPrint st none
    else .error "syntax error".toList
  | none =>
    let name := line.takeWhile Char.isAlpha
    match unwrap " = \"".toList "\"".toList (line.drop name.length) with
    | some v =>
      if isName name && isPlain v then
        .ok { st with lstate := { st.lstate with globals := (name, .str v) :: st.lstate.globals } }
      else .error "syntax error".toList
    | none => .error "syntax error".toList

/-- The statements in order, up to the first error. -/
def exec (st : St) : List Text → Outcome (List Text) Unit
  | [] => ⟨st.world, st.lstate, st.written, none⟩
  | line :: rest =>
    match step st line with
    | .ok st1 => exec st1 rest
    | .error e => ⟨st.world, st.lstate, st.written, some e⟩

/-- The interpreter. -/
def lua : Interpreter (List Text) Unit where
  newState := ⟨[], [], ()⟩
  openLibraries := fun l => l
  doString := fun w l script => exec ⟨w, l, []⟩ (lines script)

/-- A markup library whose documents are texts and which renders them as they are. -/
def markdown : MarkdownLib Text where
  commonExtensions := 0
  autoHeadingIDs := 0
  noEmptyLineBeforeBlock := 0
  commonFlags := 0
  hrefTargetBlank := 0
  parse := fun _ md => md
  render := fun _ doc => doc

end Toy

/-! ## The search -/

theorem NoEarlier.tail {α : Type} {k : Text → Option α} {c : Char} {g t : Text}
    (h : NoEarlier k (c :: g) t) : NoEarlier k g t := by
  intro a b hab hb
  exact h (c :: a) b (by simp [hab]) hb

theorem scan_of_noEarlier {α : Type} (k : Text → Option α) (g t : Text) (r : α)
    (hk : k t = some r) (hg : NoEarlier k g t) : scan k (g ++ t) = some (g, r) := by
  induction g with
  | nil =>
    cases t with
    | nil => simp [scan, hk]
    | cons c cs => simp [scan, hk]
  | cons c g ih =>
    have h0 : k (c :: (g ++ t)) = none := by
      have := hg [] (c :: g) rfl (by simp)
      simpa using this
    simp [scan, h0, ih hg.tail]

theorem scan_eq_some {α : Type} (k : Text → Option α) (s g : Text) (r : α)
    (h : scan k s = some (g, r)) :
    ∃ t, s = g ++ t ∧ k t = some r ∧ NoEarlier k g t := by
  induction s generalizing g with
  | nil =>
    simp only [scan, Option.map_eq_some'] at h
    obtain ⟨r1, hr1, heq⟩ := h
    simp only [Prod.mk.injEq] at heq
    obtain ⟨rfl, rfl⟩ := heq
    refine ⟨[], rfl, hr1, ?_⟩
    intro a b hab hb
    exact absurd (List.append_eq_nil.mp hab.symm).2 hb
  | cons c cs ih =>
    simp only [scan] at h
    cases hk : k (c :: cs) with
    | some r1 =>
      simp only [hk, Option.some.injEq, Prod.mk.injEq] at h
      obtain ⟨rfl, rfl⟩ := h
      refine ⟨c :: cs, rfl, hk, ?_⟩
      intro a b hab hb
      exact absurd (List.append_eq_nil.mp hab.symm).2 hb
    | none =>
      simp only [hk, Option.map_eq_some'] at h
      obtain ⟨⟨g1, r1⟩, hs, heq⟩ := h
      simp only [Prod.mk.injEq] at heq
      obtain ⟨rfl, rfl⟩ := heq
      obtain ⟨t, hst, hkt, hne⟩ := ih g1 hs
      refine ⟨t, by simp [hst], hkt, ?_⟩
      intro a b hab hb
      cases a with
      | nil =>
        simp only [List.nil_append] at hab
        subst hab
        simpa [hst] using hk
      | cons a0 a1 =>
        simp only [List.cons_append, List.cons.injEq] at hab
        exact hne a1 b hab.2 hb

theorem scan_eq_none {α : Type} (k : Text → Option α) (s : Text) (h : scan k s = none) :
    ∀ a b, s = a ++ b → k b = none := by
  induction s with
  | nil =>
    intro a b hab
    simp only [scan, Option.map_eq_none'] at h
    rw [(List.append_eq_nil.mp hab.symm).2]
    exact h
  | cons c cs ih =>
    simp only [scan] at h
    cases hk : k (c :: cs) with
    | some r1 => simp [hk] at h
    | none =>
      simp only [hk, Option.map_eq_none'] at h
      intro a b hab
      cases a with
      | nil => simp only [List.nil_append] at hab; subst hab; exact hk
      | cons a0 a1 =>
        simp only [List.cons_append, List.cons.injEq] at hab
        exact ih h a1 b hab.2

theorem scan_none_of_forall {α : Type} (k : Text → Option α) (s : Text)
    (h : ∀ a b, s = a ++ b → k b = none) : scan k s = none := by
  induction s with
  | nil => simp [scan, h [] [] rfl]
  | cons c cs ih =>
    have h0 := h [] (c :: cs) rfl
    have h1 : scan k cs = none := ih (fun a b hab => h (c :: a) b (by simp [hab]))
    simp [scan, h0, h1]

theorem FirstAt.indep {p g r : Text} (h : FirstAt p g r) (r1 : Text) : FirstAt p g r1 := by
  intro a b hab
  by_contra hlt
  have hlt : a.length < g.length := Nat.lt_of_not_le hlt
  have h1 : a ++ p <+: (g ++ p) ++ r1 := ⟨b, by simp [hab]⟩
  have h2 : g ++ p <+: (g ++ p) ++ r1 := ⟨r1, rfl⟩
  have h3 : a ++ p <+: g ++ p :=
    List.prefix_of_prefix_length_le h1 h2 (by simp; omega)
  obtain ⟨c, hc⟩ := h3
  have := h a (c ++ r) (by rw [← hc]; simp)
  omega

theorem FirstAt.absent {p g r : Text} (hp : p ≠ []) (h : FirstAt p g r) : ¬ p <:+: g := by
  rintro ⟨a, b, hab⟩
  have := h a (b ++ p ++ r) (by rw [← hab]; simp)
  have hl : g.length = a.length + p.length + b.length := by rw [← hab]; simp; omega
  have h0 : p.length = 0 := by omega
  exact hp (List.length_eq_zero.mp h0)

theorem matchAt_lit (p s : Text) :
    matchAt [.lit p] s = if p <+: s then some ⟨p, [], s.drop p.length⟩ else none := by
  by_cases h : p <+: s
  · simp [matchAt, h]
  · simp [matchAt, h]

theorem matchAt_lit_append (p r : Text) : matchAt [.lit p] (p ++ r) = some ⟨p, [], r⟩ := by
  simp [matchAt_lit]

theorem matchAt_lit_eq_some {p s : Text} {m : Match} (h : matchAt [.lit p] s = some m) :
    s = p ++ m.rest ∧ m.whole = p ∧ m.groups = [] := by
  rw [matchAt_lit] at h
  by_cases hp : p <+: s
  · simp only [hp, if_true, Option.some.injEq] at h
    subst h
    obtain ⟨t, rfl⟩ := hp
    simp
  · simp [hp] at h

theorem noEarlier_lit_iff (p g r : Text) :
    NoEarlier (matchAt [.lit p]) g (p ++ r) ↔ FirstAt p g r := by
  constructor
  · intro h a b hab
    by_contra hlt
    have hlt : a.length < g.length := Nat.lt_of_not_le hlt
    have h1 : a <+: g ++ (p ++ r) := ⟨p ++ b, by simpa using hab.symm⟩
    have h2 : g <+: g ++ (p ++ r) := ⟨p ++ r, rfl⟩
    obtain ⟨c, hc⟩ := List.prefix_of_prefix_length_le h1 h2 (Nat.le_of_lt hlt)
    have hcne : c ≠ [] := by
      rintro rfl
      simp at hc
      rw [hc] at hlt
      exact Nat.lt_irrefl _ hlt
    have hnone := h a c hc.symm hcne
    rw [matchAt_lit] at hnone
    have hpre : p <+: c ++ (p ++ r) := by
      refine ⟨b, ?_⟩
      have : a ++ (c ++ (p ++ r)) = a ++ (p ++ b) := by
        rw [← List.append_assoc a c, hc]
        simpa using hab
      exact (List.append_cancel_left this).symm
    simp [hpre] at hnone
  · intro h a b hab hb
    rw [matchAt_lit]
    have : ¬ p <+: b ++ (p ++ r) := by
      rintro ⟨c, hc⟩
      have := h a c (by rw [hab]; simp [← hc])
      have hl : g.length = a.length + b.length := by rw [hab]; simp
      have : b.length = 0 := by omega
      exact hb (List.length_eq_zero.mp this)
    simp [this]

theorem matchAt_group_lit_of_first (p g r : Text) (h : FirstAt p g r) :
    matchAt [.lazyAnyGroup, .lit p] (g ++ p ++ r) = some ⟨g ++ p, [g], r⟩ := by
  have hs := scan_of_noEarlier (matchAt [.lit p]) g (p ++ r) _ (matchAt_lit_append p r)
    ((noEarlier_lit_iff p g r).mpr h)
  simp only [List.append_assoc]
  rw [matchAt, hs]
  simp

theorem matchAt_group_lit_eq_some {p s : Text} {m : Match}
    (h : matchAt [.lazyAnyGroup, .lit p] s = some m) :
    ∃ g, s = g ++ p ++ m.rest ∧ m.whole = g ++ p ∧ m.groups = [g] ∧ FirstAt p g m.rest := by
  simp only [matchAt, Option.map_eq_some'] at h
  obtain ⟨⟨g, m1⟩, hs, rfl⟩ := h
  obtain ⟨t, hst, hkt, hne⟩ := scan_eq_some _ _ _ _ hs
  obtain ⟨ht, hw, hg⟩ := matchAt_lit_eq_some hkt
  refine ⟨g, ?_, ?_, ?_, ?_⟩
  · simp [hst, ht]
  · simp [hw]
  · simp [hg]
  · rw [ht] at hne
    exact (noEarlier_lit_iff p g m1.rest).mp hne

theorem matchAt_group_lit_isSome {p s : Text} (h : p <:+: s) :
    (matchAt [.lazyAnyGroup, .lit p] s).isSome := by
  obtain ⟨a, b, hab⟩ := h
  cases hs : scan (matchAt [.lit p]) s with
  | none =>
    have := scan_eq_none _ _ hs a (p ++ b) (by simp [← hab])
    simp [matchAt_lit] at this
  | some r => rw [matchAt, hs]; simp

/-- What an anchored match of the pattern of `Page.render` is. -/
theorem matchAt_scriptRe_eq_some {s : Text} {m : Match} (h : matchAt scriptRe s = some m) :
    ∃ inner, s = openFence ++ inner ++ fence ++ m.rest ∧ m.whole = openFence ++ inner ++ fence ∧
      m.groups = [inner] ∧ FirstAt fence inner m.rest := by
  unfold scriptRe at h
  rw [matchAt] at h
  by_cases hp : openFence <+: s
  · simp only [List.isPrefixOf_iff_prefix, hp, if_true, Option.map_eq_some'] at h
    obtain ⟨m1, hm1, rfl⟩ := h
    obtain ⟨g, hs, hw, hg, hf⟩ := matchAt_group_lit_eq_some hm1
    obtain ⟨t, rfl⟩ := hp
    simp only [List.drop_left] at hs
    refine ⟨g, ?_, ?_, hg, hf⟩
    · simp [hs]
    · simp [hw]
  · simp [hp] at h

theorem matchAt_scriptRe_of_first (inner rest : Text) (h : FirstAt fence inner rest) :
    matchAt scriptRe (openFence ++ inner ++ fence ++ rest) =
      some ⟨openFence ++ inner ++ fence, [inner], rest⟩ := by
  have h1 := matchAt_group_lit_of_first fence inner rest h
  unfold scriptRe
  rw [matchAt]
  have hp : openFence <+: openFence ++ inner ++ fence ++ rest := ⟨inner ++ fence ++ rest, by simp⟩
  have hd : (openFence ++ inner ++ fence ++ rest).drop openFence.length = inner ++ fence ++ rest := by
    simp only [List.append_assoc, List.drop_left]
  simp only [List.isPrefixOf_iff_prefix, hp, if_true, hd, h1]
  simp

theorem matchAt_scriptRe_isSome {s : Text} (hp : openFence <+: s)
    (hf : fence <:+: s.drop openFence.length) : (matchAt scriptRe s).isSome := by
  have := matchAt_group_lit_isSome hf
  unfold scriptRe
  rw [matchAt]
  simp only [List.isPrefixOf_iff_prefix, hp, if_true]
  cases hm : matchAt [.lazyAnyGroup, .lit fence] (s.drop openFence.length) with
  | none => simp [hm] at this
  | some r => simp


/-! ## The locator -/

theorem scan_of_some {α : Type} (k : Text → Option α) (s : Text) (r : α) (h : k s = some r) :
    scan k s = some ([], r) := by
  have := scan_of_noEarlier k [] s r h (by
    intro a b hab hb
    exact absurd (List.append_eq_nil.mp hab.symm).2 hb)
  simpa using this

/-- What the leftmost match of the pattern in a text is. -/
theorem findMatch_eq_some {s b : Text} {m : Match} (h : findMatch scriptRe s = some (b, m)) :
    ∃ inner, s = b ++ (openFence ++ inner ++ fence ++ m.rest) ∧
      m.whole = openFence ++ inner ++ fence ∧ m.groups = [inner] ∧
      FirstAt fence inner m.rest ∧
      NoEarlier (matchAt scriptRe) b (openFence ++ inner ++ fence ++ m.rest) := by
  obtain ⟨t, hst, hkt, hne⟩ := scan_eq_some _ _ _ _ h
  obtain ⟨inner, ht, hw, hg, hf⟩ := matchAt_scriptRe_eq_some hkt
  refine ⟨inner, ?_, hw, hg, hf, ?_⟩
  · rw [hst, ht]
  · rw [← ht]; exact hne

theorem findMatch_of_first (b inner rest : Text) (hf : FirstAt fence inner rest)
    (hb : NoEarlier (matchAt scriptRe) b (openFence ++ inner ++ fence ++ rest)) :
    findMatch scriptRe (b ++ (openFence ++ inner ++ fence ++ rest)) =
      some (b, ⟨openFence ++ inner ++ fence, [inner], rest⟩) :=
  scan_of_noEarlier _ _ _ _ (matchAt_scriptRe_of_first inner rest hf) hb

/-- The pattern applied to a match alone finds the whole of it and the same group. -/
theorem findStringSubmatch_span (inner rest : Text) (hf : FirstAt fence inner rest) :
    findStringSubmatch scriptRe (openFence ++ inner ++ fence) =
      [openFence ++ inner ++ fence, inner] := by
  have h1 := matchAt_scriptRe_of_first inner [] (hf.indep [])
  simp only [List.append_nil] at h1
  have h2 := scan_of_some _ _ _ h1
  rw [findStringSubmatch, findMatch, h2]

theorem callback_span {W H : Type} (lua : Interpreter W H) (st : RenderState W H)
    (inner rest : Text) (hf : FirstAt fence inner rest) :
    callback lua st (openFence ++ inner ++ fence) = some (runBlock lua st inner) := by
  rw [callback, findStringSubmatch_span inner rest hf]
  rfl

theorem fence_length : fence.length = 3 := rfl

theorem openFence_length : openFence.length = 10 := rfl

theorem replaceAllLoop_eq {W H : Type} (lua : Interpreter W H) :
    ∀ (n : Nat) (s : Text) (st : RenderState W H), s.length < n →
      replaceAllLoop scriptRe (callback lua) n s st =
        some (⟨endWorld st.world
                (execAll lua st.log.length st.world st.lstate ((locateLoop n s).1.map Block.inner)),
              endLState st.lstate
                (execAll lua st.log.length st.world st.lstate ((locateLoop n s).1.map Block.inner)),
              st.log ++
                execAll lua st.log.length st.world st.lstate ((locateLoop n s).1.map Block.inner)⟩,
          assemble (locateLoop n s).1
            ((execAll lua st.log.length st.world st.lstate
              ((locateLoop n s).1.map Block.inner)).map Run.result)
            (locateLoop n s).2) := by
  intro n
  induction n with
  | zero => intro s st h; exact absurd h (Nat.not_lt_zero _)
  | succ n ih =>
    intro s st hlen
    cases hfm : findMatch scriptRe s with
    | none =>
      simp [replaceAllLoop, locateLoop, hfm, execAll, endWorld, endLState, assemble]
    | some bm =>
      obtain ⟨b, m⟩ := bm
      obtain ⟨inner, hs, hw, hg, hf, -⟩ := findMatch_eq_some hfm
      have hrest : m.rest.length < n := by
        have : s.length = b.length + (10 + inner.length + 3 + m.rest.length) := by
          rw [hs]; simp [openFence_length, fence_length]; omega
        omega
      have hcb := callback_span lua st inner m.rest hf
      rw [← hw] at hcb
      have hih := ih m.rest (runBlock lua st inner).1 hrest
      simp only [runBlock, List.length_append, List.length_singleton] at hih
      simp only [replaceAllLoop, locateLoop, hfm, hcb, hih, hg, List.headD_cons, List.map_cons,
        execAll, endWorld, endLState, assemble, Option.map_some', runBlock, List.length_append,
        List.length_singleton, List.append_assoc, List.singleton_append, List.map_cons]

theorem locateLoop_fuel : ∀ (n k : Nat) (s : Text), s.length < n → s.length < k →
    locateLoop n s = locateLoop k s := by
  intro n
  induction n with
  | zero => intro k s h; exact absurd h (Nat.not_lt_zero _)
  | succ n ih =>
    intro k s hn hk
    cases k with
    | zero => exact absurd hk (Nat.not_lt_zero _)
    | succ k =>
      cases hfm : findMatch scriptRe s with
      | none => simp [locateLoop, hfm]
      | some bm =>
        obtain ⟨b, m⟩ := bm
        obtain ⟨inner, hs, -, -, -, -⟩ := findMatch_eq_some hfm
        have hl : s.length = b.length + (10 + inner.length + 3 + m.rest.length) := by
          rw [hs]; simp [openFence_length, fence_length]; omega
        have := ih k m.rest (by omega) (by omega)
        simp [locateLoop, hfm, this]

theorem locate_of_none {s : Text} (h : findMatch scriptRe s = none) : locate s = ([], s) := by
  simp [locate, locateLoop, h]

theorem locate_of_some {s b : Text} {m : Match} (h : findMatch scriptRe s = some (b, m)) :
    locate s = (⟨b, m.groups.headD []⟩ :: (locate m.rest).1, (locate m.rest).2) := by
  obtain ⟨inner, hs, -, -, -, -⟩ := findMatch_eq_some h
  have hl : s.length = b.length + (10 + inner.length + 3 + m.rest.length) := by
    rw [hs]; simp [openFence_length, fence_length]; omega
  have := locateLoop_fuel s.length (m.rest.length + 1) m.rest (by omega) (by omega)
  simp only [locate, locateLoop, h, this]

theorem locateLoop_assemble : ∀ (n : Nat) (s : Text),
    assemble (locateLoop n s).1 ((locateLoop n s).1.map Block.span) (locateLoop n s).2 = s := by
  intro n
  induction n with
  | zero => intro s; simp [locateLoop, assemble]
  | succ n ih =>
    intro s
    cases hfm : findMatch scriptRe s with
    | none => simp [locateLoop, hfm, assemble]
    | some bm =>
      obtain ⟨b, m⟩ := bm
      obtain ⟨inner, hs, -, hg, -, -⟩ := findMatch_eq_some hfm
      simp only [locateLoop, hfm, hg, List.headD_cons, List.map_cons, assemble, ih m.rest,
        Block.span]
      rw [hs]
      simp

theorem locateLoop_firstAt : ∀ (n : Nat) (s : Text) (b : Block), b ∈ (locateLoop n s).1 →
    ∀ r, FirstAt fence b.inner r := by
  intro n
  induction n with
  | zero => intro s b hb; simp [locateLoop] at hb
  | succ n ih =>
    intro s b hb r
    cases hfm : findMatch scriptRe s with
    | none => simp [locateLoop, hfm] at hb
    | some bm =>
      obtain ⟨b0, m⟩ := bm
      obtain ⟨inner, -, -, hg, hf, -⟩ := findMatch_eq_some hfm
      simp only [locateLoop, hfm, hg, List.headD_cons, List.mem_cons] at hb
      rcases hb with rfl | hb
      · exact hf.indep r
      · exact ih m.rest b hb r

theorem locateLoop_tail : ∀ (n : Nat) (s : Text), s.length < n →
    findMatch scriptRe (locateLoop n s).2 = none := by
  intro n
  induction n with
  | zero => intro s h; exact absurd h (Nat.not_lt_zero _)
  | succ n ih =>
    intro s hlen
    cases hfm : findMatch scriptRe s with
    | none => simp [locateLoop, hfm]
    | some bm =>
      obtain ⟨b, m⟩ := bm
      obtain ⟨inner, hs, -, -, -, -⟩ := findMatch_eq_some hfm
      have hl : s.length = b.length + (10 + inner.length + 3 + m.rest.length) := by
        rw [hs]; simp [openFence_length, fence_length]; omega
      simp only [locateLoop, hfm]
      exact ih m.rest (by omega)

/-! ## Sequential execution -/

theorem execAll_map_source {W H : Type} (lua : Interpreter W H) :
    ∀ (ss : List Text) (n : Nat) (w : W) (l : LState H),
      (execAll lua n w l ss).map Run.source = ss := by
  intro ss
  induction ss with
  | nil => intro n w l; rfl
  | cons s ss ih =>
    intro n w l
    simp only [execAll, List.map_cons, ih]
    rfl

theorem execAll_length {W H : Type} (lua : Interpreter W H) (ss : List Text) (n : Nat) (w : W)
    (l : LState H) : (execAll lua n w l ss).length = ss.length := by
  have := congrArg List.length (execAll_map_source lua ss n w l)
  simpa using this

theorem execAll_chained {W H : Type} (lua : Interpreter W H) :
    ∀ (ss : List Text) (n : Nat) (w : W) (l : LState H), Chained w l (execAll lua n w l ss) := by
  intro ss
  induction ss with
  | nil => intro n w l; trivial
  | cons s ss ih =>
    intro n w l
    exact ⟨rfl, rfl, ih _ _ _⟩

theorem execAll_mem {W H : Type} (lua : Interpreter W H) :
    ∀ (ss : List Text) (n : Nat) (w : W) (l : LState H) (r : Run W H),
      r ∈ execAll lua n w l ss → ∃ k w1 l1 s, r = execBlock lua k w1 l1 s := by
  intro ss
  induction ss with
  | nil => intro n w l r hr; simp [execAll] at hr
  | cons s ss ih =>
    intro n w l r hr
    simp only [execAll, List.mem_cons] at hr
    rcases hr with rfl | hr
    · exact ⟨n, w, l, s, rfl⟩
    · exact ih _ _ _ r hr

/-- What `Page.substitute` computes: the blocks of the body are executed in
order, and the text is assembled from the texts around the blocks and the
results. -/
theorem substitute_eq {W H : Type} (lua : Interpreter W H) (w : W) (p : Page) :
    p.substitute lua w =
      some (⟨endWorld w (execAll lua 0 w (initState lua p.Title) ((locate p.Body).1.map Block.inner)),
             endLState (initState lua p.Title)
               (execAll lua 0 w (initState lua p.Title) ((locate p.Body).1.map Block.inner)),
             execAll lua 0 w (initState lua p.Title) ((locate p.Body).1.map Block.inner)⟩,
        assemble (locate p.Body).1
          ((execAll lua 0 w (initState lua p.Title) ((locate p.Body).1.map Block.inner)).map
            Run.result)
          (locate p.Body).2) := by
  have := replaceAllLoop_eq lua (p.Body.length + 1) p.Body ⟨w, initState lua p.Title, []⟩
    (Nat.lt_succ_self _)
  simpa [Page.substitute, replaceAllStringFunc, locate] using this

theorem execAll_getElem? {W H : Type} (lua : Interpreter W H) :
    ∀ (ss : List Text) (n : Nat) (w : W) (l : LState H) (i : Nat) (r : Run W H),
      (execAll lua n w l ss)[i]? = some r →
        r = execBlock lua (n + i) r.entryWorld r.entry r.source := by
  intro ss
  induction ss with
  | nil => intro n w l i r hr; simp [execAll] at hr
  | cons s ss ih =>
    intro n w l i r hr
    cases i with
    | zero =>
      simp only [execAll, List.getElem?_cons_zero, Option.some.injEq] at hr
      subst hr
      rfl
    | succ i =>
      simp only [execAll, List.getElem?_cons_succ] at hr
      have := ih _ _ _ i r hr
      rw [Nat.add_right_comm] at this
      exact this

theorem findMatch_none_of_no_open {s : Text} (h : ¬ openFence <:+: s) :
    findMatch scriptRe s = none := by
  apply scan_none_of_forall
  intro a b hab
  cases hm : matchAt scriptRe b with
  | none => rfl
  | some m =>
    obtain ⟨inner, hb, -, -, -⟩ := matchAt_scriptRe_eq_some hm
    exact absurd ⟨a, inner ++ fence ++ m.rest, by rw [hab, hb]; simp⟩ h

/-! ## The output buffer -/

theorem foldl_printTo (ws : List Text) (acc : Text) :
    ws.foldl printTo acc = acc ++ (ws.map (· ++ ['\n'])).flatten := by
  induction ws generalizing acc with
  | nil => simp
  | cons x xs ih => simp [ih, printTo]

theorem trimSuffix_append (x suffix : Text) : trimSuffix (x ++ suffix) suffix = x := by
  have h : suffix <:+ x ++ suffix := ⟨x, rfl⟩
  simp [trimSuffix, h]

/-- The result of a block that succeeded, from the strings it printed. -/
theorem execBlock_result_ok {W H : Type} (lua : Interpreter W H) (n : Nat) (w : W) (l : LState H)
    (script : Text) (hok : (execBlock lua n w l script).outcome.err = none) :
    ((execBlock lua n w l script).outcome.written = [] →
        (execBlock lua n w l script).result = []) ∧
    (∀ ws s, (execBlock lua n w l script).outcome.written = ws ++ [s] →
        (execBlock lua n w l script).result = (ws.map (· ++ ['\n'])).flatten ++ s) := by
  simp only [execBlock] at hok ⊢
  rw [hok]
  constructor
  · intro h0
    rw [h0]
    rfl
  · intro ws s hws
    rw [hws, foldl_printTo]
    simp only [List.map_append, List.flatten_append, List.map_cons, List.map_nil,
      List.flatten_cons, List.flatten_nil, List.append_nil, List.nil_append]
    rw [← List.append_assoc]
    exact trimSuffix_append _ _

theorem execBlock_result_err {W H : Type} (lua : Interpreter W H) (n : Nat) (w : W) (l : LState H)
    (script e : Text) (herr : (execBlock lua n w l script).outcome.err = some e) :
    (execBlock lua n w l script).result = errorPrefix ++ e := by
  simp only [execBlock] at herr ⊢
  rw [herr]

theorem initState_page_title {W H : Type} (lua : Interpreter W H) (title : Text) :
    ((initState lua title).global "page".toList).bind (LValue.field "title".toList) =
      some (.str title) := by
  simp [initState, LState.setGlobal, LState.setField, LState.pushString, LState.newTable,
    LState.global, LValue.field, modifyAt, LValue.setKey, List.lookup]

/-! ## Text after the located blocks -/

theorem openFence_prefix_straddle (c t : Text) (hc : c ≠ [])
    (h : openFence <+: c ++ (openFence ++ t)) : openFence <+: c := by
  rcases c with _ | ⟨c0, _ | ⟨c1, _ | ⟨c2, _ | ⟨c3, _ | ⟨c4, _ | ⟨c5, _ | ⟨c6, _ | ⟨c7, _ |
    ⟨c8, _ | ⟨c9, c⟩⟩⟩⟩⟩⟩⟩⟩⟩⟩
  · exact absurd rfl hc
  all_goals simp [openFence, tick] at h ⊢
  exact h

theorem findMatch_append {s b : Text} {m : Match} (x : Text)
    (h : findMatch scriptRe s = some (b, m)) :
    findMatch scriptRe (s ++ x) = some (b, ⟨m.whole, m.groups, m.rest ++ x⟩) := by
  obtain ⟨inner, hs, hw, hg, hf, hne⟩ := findMatch_eq_some h
  have hne1 : NoEarlier (matchAt scriptRe) b (openFence ++ inner ++ fence ++ (m.rest ++ x)) := by
    intro a c hac hc
    cases hm : matchAt scriptRe (c ++ (openFence ++ inner ++ fence ++ (m.rest ++ x))) with
    | none => rfl
    | some m2 =>
      exfalso
      obtain ⟨inner2, hc2, -, -, -⟩ := matchAt_scriptRe_eq_some hm
      have hp1 : openFence <+: (c ++ (openFence ++ inner ++ fence ++ m.rest)) ++ x :=
        ⟨inner2 ++ fence ++ m2.rest, by
          simp only [List.append_assoc] at hc2 ⊢
          exact hc2.symm⟩
      have hp2 : c ++ (openFence ++ inner ++ fence ++ m.rest) <+:
          (c ++ (openFence ++ inner ++ fence ++ m.rest)) ++ x := ⟨x, rfl⟩
      have hp : openFence <+: c ++ (openFence ++ inner ++ fence ++ m.rest) :=
        List.prefix_of_prefix_length_le hp1 hp2 (by simp [openFence_length]; omega)
      have hdrop : (c ++ (openFence ++ inner ++ fence ++ m.rest)).drop openFence.length =
          (c ++ openFence ++ inner).drop openFence.length ++ (fence ++ m.rest) := by
        rw [← List.drop_append_of_le_length (by simp [openFence_length]; omega)]
        simp
      have hfx : fence <:+: (c ++ (openFence ++ inner ++ fence ++ m.rest)).drop openFence.length :=
        ⟨(c ++ openFence ++ inner).drop openFence.length, m.rest, by rw [hdrop]; simp⟩
      have hsome := matchAt_scriptRe_isSome hp hfx
      rw [hne a c hac hc] at hsome
      exact absurd hsome (by simp)
  have := findMatch_of_first b inner (m.rest ++ x) (hf.indep _) hne1
  rw [hw, hg, hs]
  simpa using this

theorem findMatch_none_open_tail (r tail : Text) (hr : ¬ openFence <:+: r)
    (ht : ¬ fence <:+: tail) : findMatch scriptRe (r ++ (openFence ++ tail)) = none := by
  apply scan_none_of_forall
  intro a y hay
  cases hm : matchAt scriptRe y with
  | none => rfl
  | some m =>
    exfalso
    obtain ⟨inner, hy, -, -, -⟩ := matchAt_scriptRe_eq_some hm
    rcases List.append_eq_append_iff.mp hay with ⟨a1, -, h2⟩ | ⟨c1, h1, h2⟩
    · -- the match starts in the opening delimiter or after it
      rw [hy] at h2
      have h3 : openFence ++ tail = (a1 ++ openFence) ++ (inner ++ fence ++ m.rest) := by
        rw [h2]; simp
      rcases List.append_eq_append_iff.mp h3 with ⟨a2, -, h5⟩ | ⟨c2, h4, h5⟩
      · exact ht ⟨a2 ++ inner, m.rest, by rw [h5]; simp⟩
      · have hl := congrArg List.length h4
        simp only [List.length_append] at hl
        have hc2 : c2 = [] := List.length_eq_zero.mp (by omega)
        subst hc2
        simp only [List.nil_append] at h5
        exact ht ⟨inner, m.rest, by rw [← h5]⟩
    · -- the match starts before the opening delimiter
      by_cases hc : c1 = []
      · subst hc
        simp only [List.nil_append] at h2
        rw [hy] at h2
        have : tail = inner ++ fence ++ m.rest := by
          have h6 : openFence ++ tail = openFence ++ (inner ++ fence ++ m.rest) := by
            rw [← h2]; simp
          exact List.append_cancel_left h6
        exact ht ⟨inner, m.rest, this.symm⟩
      · have hp : openFence <+: c1 ++ (openFence ++ tail) :=
          ⟨inner ++ fence ++ m.rest, by rw [← h2, hy]; simp⟩
        have := openFence_prefix_straddle c1 tail hc hp
        obtain ⟨d, hd⟩ := this
        exact hr ⟨a, d, by rw [h1, ← hd]; simp⟩

theorem locate_append (x : Text) : ∀ (n : Nat) (pre : Text), pre.length < n →
    findMatch scriptRe ((locateLoop n pre).2 ++ x) = none →
    locate (pre ++ x) = ((locateLoop n pre).1, (locateLoop n pre).2 ++ x) := by
  intro n
  induction n with
  | zero => intro pre h; exact absurd h (Nat.not_lt_zero _)
  | succ n ih =>
    intro pre hlen hnone
    cases hfm : findMatch scriptRe pre with
    | none =>
      simp only [locateLoop, hfm] at hnone ⊢
      exact locate_of_none hnone
    | some bm =>
      obtain ⟨b, m⟩ := bm
      obtain ⟨inner, hs, -, -, -, -⟩ := findMatch_eq_some hfm
      have hl : pre.length = b.length + (10 + inner.length + 3 + m.rest.length) := by
        rw [hs]; simp [openFence_length, fence_length]; omega
      simp only [locateLoop, hfm] at hnone ⊢
      rw [locate_of_some (findMatch_append x hfm)]
      rw [ih m.rest (by omega) hnone]

theorem assemble_append (x : Text) : ∀ (bs : List Block) (ts : List Text) (tail : Text),
    assemble bs ts (tail ++ x) = assemble bs ts tail ++ x := by
  intro bs
  induction bs with
  | nil => intro ts tail; simp [assemble]
  | cons b bs ih =>
    intro ts tail
    cases ts with
    | nil => simp [assemble]
    | cons t ts => simp [assemble, ih]

theorem firstAt_of_not_mem (inner rest : Text) (h : tick ∉ inner) : FirstAt fence inner rest := by
  intro a b hab
  by_contra hlt
  have hlt : a.length < inner.length := Nat.lt_of_not_le hlt
  have h1 : a <+: inner ++ (fence ++ rest) := ⟨fence ++ b, by simpa using hab.symm⟩
  have h2 : inner <+: inner ++ (fence ++ rest) := ⟨fence ++ rest, rfl⟩
  obtain ⟨c, hc⟩ := List.prefix_of_prefix_length_le h1 h2 (Nat.le_of_lt hlt)
  have h3 : c ++ (fence ++ rest) = fence ++ b := by
    have : a ++ (c ++ (fence ++ rest)) = a ++ (fence ++ b) := by
      rw [← List.append_assoc, hc]; simpa using hab
    exact List.append_cancel_left this
  cases c with
  | nil =>
    simp only [List.append_nil] at hc
    rw [hc] at hlt
    exact Nat.lt_irrefl _ hlt
  | cons d c =>
    simp only [fence, List.cons_append, List.cons.injEq] at h3
    apply h
    rw [← hc, ← h3.1]
    simp

theorem noEarlier_of_not_mem (pre t : Text) (h : tick ∉ pre) :
    NoEarlier (matchAt scriptRe) pre t := by
  intro a c hac hc
  cases hm : matchAt scriptRe (c ++ t) with
  | none => rfl
  | some m =>
    exfalso
    obtain ⟨inner, hy, -, -, -⟩ := matchAt_scriptRe_eq_some hm
    cases c with
    | nil => exact hc rfl
    | cons d c =>
      simp only [openFence, List.cons_append, List.cons.injEq] at hy
      apply h
      rw [hac, hy.1]
      simp

theorem execAll_result_indep {W H : Type} (lua : Interpreter W H)
    (hpure : ∀ (w w1 : W) (l : LState H) (s : Text),
      (lua.doString w l s).lstate = (lua.doString w1 l s).lstate ∧
      (lua.doString w l s).written = (lua.doString w1 l s).written ∧
      (lua.doString w l s).err = (lua.doString w1 l s).err) :
    ∀ (ss : List Text) (n : Nat) (w w1 : W) (l : LState H),
      (execAll lua n w l ss).map Run.result = (execAll lua n w1 l ss).map Run.result := by
  intro ss
  induction ss with
  | nil => intro n w w1 l; rfl
  | cons s ss ih =>
    intro n w w1 l
    obtain ⟨h1, h2, h3⟩ := hpure w w1 (l.register "print".toList n) s
    simp only [execAll, List.map_cons, execBlock, h1, h2, h3]
    rw [ih (n + 1) (lua.doString w (l.register "print".toList n) s).world
      (lua.doString w1 (l.register "print".toList n) s).world]

/-! ## Interleaved calls -/

theorem step_of_none {W H : Type} (lua : Interpreter W H) (w : W) (c : Call W H)
    (h : findMatch scriptRe c.src = none) : c.step lua w = (w, c) := by
  simp [Call.step, h]

theorem step_of_some {W H : Type} (lua : Interpreter W H) (w : W) (c : Call W H) {b : Text}
    {m : Match} (h : findMatch scriptRe c.src = some (b, m)) :
    ∃ inner, m.groups = [inner] ∧ m.whole = openFence ++ inner ++ fence ∧
      FirstAt fence inner m.rest ∧
      c.step lua w =
        ((execBlock lua c.log.length w c.lstate inner).outcome.world,
          ⟨m.rest, c.out ++ b ++ (execBlock lua c.log.length w c.lstate inner).result,
            (execBlock lua c.log.length w c.lstate inner).outcome.lstate,
            c.log ++ [execBlock lua c.log.length w c.lstate inner]⟩) := by
  obtain ⟨inner, -, hw, hg, hf, -⟩ := findMatch_eq_some h
  refine ⟨inner, hg, hw, hf, ?_⟩
  have hcb := callback_span lua ⟨w, c.lstate, c.log⟩ inner m.rest hf
  rw [← hw] at hcb
  simp only [Call.step, h, hcb, runBlock]

theorem interleave_idle {W H : Type} (lua : Interpreter W H) (a c : Call W H)
    (h : findMatch scriptRe c.src = none) :
    ∀ (n : Nat) (w : W), interleave lua (List.replicate n false) w a c = (w, a, c) := by
  intro n
  induction n with
  | zero => intro w; rfl
  | succ n ih =>
    intro w
    simp only [List.replicate_succ, interleave, step_of_none lua w c h]
    exact ih w

theorem interleave_alone {W H : Type} (lua : Interpreter W H) (a : Call W H) :
    ∀ (n : Nat) (c : Call W H) (w : W), c.src.length < n →
      ∃ w1 c1, interleave lua (List.replicate n false) w a c = (w1, a, c1) ∧
        findMatch scriptRe c1.src = none ∧
        (replaceAllLoop scriptRe (callback lua) n c.src ⟨w, c.lstate, c.log⟩).map
            (fun r => (r.1, c.out ++ r.2)) =
          some (⟨w1, c1.lstate, c1.log⟩, c1.out ++ c1.src) := by
  intro n
  induction n with
  | zero => intro c w h; exact absurd h (Nat.not_lt_zero _)
  | succ n ih =>
    intro c w hlen
    cases hfm : findMatch scriptRe c.src with
    | none =>
      refine ⟨w, c, ?_, hfm, ?_⟩
      · exact interleave_idle lua a c hfm (n + 1) w
      · simp [replaceAllLoop, hfm]
    | some bm =>
      obtain ⟨b, m⟩ := bm
      obtain ⟨inner, hg, hw, hf, hstep⟩ := step_of_some lua w c hfm
      obtain ⟨inner1, hs, -, hg1, -, -⟩ := findMatch_eq_some hfm
      have hl : c.src.length = b.length + (10 + inner1.length + 3 + m.rest.length) := by
        rw [hs]; simp [openFence_length, fence_length]; omega
      have hcb := callback_span lua ⟨w, c.lstate, c.log⟩ inner m.rest hf
      rw [← hw] at hcb
      obtain ⟨w1, c1, hi, hnone, hrep⟩ := ih (c.step lua w).2 (c.step lua w).1
        (by rw [hstep]; show m.rest.length < n; omega)
      refine ⟨w1, c1, ?_, hnone, ?_⟩
      · simp only [List.replicate_succ, interleave]
        exact hi
      · rw [hstep] at hrep
        simp only [replaceAllLoop, hfm, hcb, runBlock, Option.map_map]
        rw [← hrep]
        simp only [Option.map_map]
        congr 1
        funext r
        simp [List.append_assoc]

theorem interleave_inv {W H : Type} (lua : Interpreter W H) (P Q : Call W H → Prop)
    (hP : ∀ w c, P c → P (c.step lua w).2) (hQ : ∀ w c, Q c → Q (c.step lua w).2) :
    ∀ (sch : List Bool) (w : W) (a b : Call W H), P a → Q b →
      P (interleave lua sch w a b).2.1 ∧ Q (interleave lua sch w a b).2.2 := by
  intro sch
  induction sch with
  | nil => intro w a b ha hb; exact ⟨ha, hb⟩
  | cons x sch ih =>
    intro w a b ha hb
    cases x with
    | true => exact ih _ _ _ (hP w a ha) hb
    | false => exact ih _ _ _ ha (hQ w b hb)

theorem LChained_append {W H : Type} (r : Run W H) :
    ∀ (log : List (Run W H)) (l : LState H), LChained l log → r.entry = endLState l log →
      LChained l (log ++ [r]) := by
  intro log
  induction log with
  | nil => intro l _ h; exact ⟨h, trivial⟩
  | cons x xs ih =>
    intro l hc h
    exact ⟨hc.1, ih _ hc.2 h⟩

theorem endLState_append {W H : Type} (r : Run W H) :
    ∀ (log : List (Run W H)) (l : LState H), endLState l (log ++ [r]) = r.outcome.lstate := by
  intro log
  induction log with
  | nil => intro l; rfl
  | cons x xs ih => intro l; exact ih _

theorem ownState_start {W H : Type} (lua : Interpreter W H) (p : Page) :
    OwnState lua p.Title (Call.start lua p) := by
  refine ⟨trivial, rfl, ?_⟩
  intro i run h
  simp [Call.start] at h

theorem ownState_step {W H : Type} (lua : Interpreter W H) (title : Text) (w : W)
    (c : Call W H) (h : OwnState lua title c) : OwnState lua title (c.step lua w).2 := by
  cases hfm : findMatch scriptRe c.src with
  | none => rw [step_of_none lua w c hfm]; exact h
  | some bm =>
    obtain ⟨b, m⟩ := bm
    obtain ⟨inner, -, -, -, hstep⟩ := step_of_some lua w c hfm
    rw [hstep]
    obtain ⟨h1, h2, h3⟩ := h
    refine ⟨LChained_append _ _ _ h1 h2, (endLState_append _ _ _).symm, ?_⟩
    intro i run hrun
    simp only at hrun
    by_cases hi : i < c.log.length
    · rw [List.getElem?_append_left hi] at hrun
      exact h3 i run hrun
    · have hge : c.log.length ≤ i := Nat.le_of_not_lt hi
      rw [List.getElem?_append_right hge] at hrun
      cases hk : i - c.log.length with
      | zero =>
        rw [hk] at hrun
        simp only [List.getElem?_cons_zero, Option.some.injEq] at hrun
        have hi2 : i = c.log.length := by omega
        subst hrun
        rw [hi2]
        rfl
      | succ k =>
        rw [hk] at hrun
        simp at hrun

theorem execBlock_indep {W H : Type} (lua : Interpreter W H)
    (hpure : ∀ (w w1 : W) (l : LState H) (s : Text),
      (lua.doString w l s).lstate = (lua.doString w1 l s).lstate ∧
      (lua.doString w l s).written = (lua.doString w1 l s).written ∧
      (lua.doString w l s).err = (lua.doString w1 l s).err)
    (n : Nat) (w w1 : W) (l : LState H) (s : Text) :
    (execBlock lua n w l s).result = (execBlock lua n w1 l s).result ∧
      (execBlock lua n w l s).outcome.lstate = (execBlock lua n w1 l s).outcome.lstate := by
  obtain ⟨h1, h2, h3⟩ := hpure w w1 (l.register "print".toList n) s
  simp only [execBlock, h1, h2, h3, and_self]

theorem finish_eq {W H : Type} (lua : Interpreter W H) (w : W) (c : Call W H) :
    Call.finish lua w c =
      some (c.out ++ assemble (locate c.src).1
        ((execAll lua c.log.length w c.lstate ((locate c.src).1.map Block.inner)).map Run.result)
        (locate c.src).2) := by
  have := replaceAllLoop_eq lua (c.src.length + 1) c.src ⟨w, c.lstate, c.log⟩ (Nat.lt_succ_self _)
  simp only [Call.finish, replaceAllStringFunc, this, Option.map_some', locate]

theorem finish_step {W H : Type} (lua : Interpreter W H)
    (hpure : ∀ (w w1 : W) (l : LState H) (s : Text),
      (lua.doString w l s).lstate = (lua.doString w1 l s).lstate ∧
      (lua.doString w l s).written = (lua.doString w1 l s).written ∧
      (lua.doString w l s).err = (lua.doString w1 l s).err)
    (w w1 : W) (c : Call W H) :
    Call.finish lua w1 (c.step lua w).2 = Call.finish lua w1 c := by
  cases hfm : findMatch scriptRe c.src with
  | none => rw [step_of_none lua w c hfm]
  | some bm =>
    obtain ⟨b, m⟩ := bm
    obtain ⟨inner, hg, -, -, hstep⟩ := step_of_some lua w c hfm
    rw [hstep, finish_eq, finish_eq, locate_of_some hfm, hg]
    obtain ⟨hr, hl⟩ := execBlock_indep lua hpure c.log.length w w1 c.lstate inner
    simp only [List.headD_cons, List.map_cons, execAll, assemble, List.length_append,
      List.length_singleton, List.append_assoc, hr, hl]
    rw [execAll_result_indep lua hpure _ (c.log.length + 1) w1
      (execBlock lua c.log.length w1 c.lstate inner).outcome.world]

/-! ## The claims -/

/-- C1: for every page and every interpreter, the text that `Page.render` hands
to `markdownToHTML` is the body with the full span of each located block
replaced by that block's result: the body is the texts around the blocks with
the spans in between, the rewritten text is the same texts around the blocks
with the results in between, and no match is left in the text after the last
block.  The blocks are located in the original body alone, the sources executed
are their inner sources, so no result moves a span or is searched for
delimiters.  The body of the example is rewritten to
"# Hi\n\nworld\n" when the interpreter, with `print` registered, runs the
source of its block without error and prints "world". -/
theorem render_replaces_block_spans {W H D : Type} (lib : MarkdownLib D) (lua : Interpreter W H)
    (w : W) (p : Page) :
    (∃ st : RenderState W H,
      p.substitute lua w =
        some (st, assemble (locate p.Body).1 (st.log.map Run.result) (locate p.Body).2) ∧
      p.render lib lua w =
        some ⟨markdownToHTML lib
          (assemble (locate p.Body).1 (st.log.map Run.result) (locate p.Body).2),
          st.world, st.log⟩ ∧
      p.Body = assemble (locate p.Body).1 ((locate p.Body).1.map Block.span) (locate p.Body).2 ∧
      findMatch scriptRe (locate p.Body).2 = none ∧
      st.log.length = (locate p.Body).1.length ∧
      st.log.map Run.source = (locate p.Body).1.map Block.inner ∧
      st.log = execAll lua 0 w (initState lua p.Title) ((locate p.Body).1.map Block.inner)) ∧
    ((∀ (w1 : W) (l : LState H) (n : Nat),
        (lua.doString w1 (l.register "print".toList n) "print(\"world\")\n".toList).err = none ∧
        (lua.doString w1 (l.register "print".toList n) "print(\"world\")\n".toList).written =
          ["world".toList]) →
      ((⟨p.Title, "# Hi\n\n```script\nprint(\"world\")\n```\n".toList⟩ : Page).substitute lua w).map
        (fun r => r.2) = some "# Hi\n\nworld\n".toList) := by
  constructor
  · refine ⟨_, substitute_eq lua w p, ?_, ?_, ?_, ?_, ?_, rfl⟩
    · simp [Page.render, substitute_eq lua w p]
    · exact (locateLoop_assemble _ _).symm
    · exact locateLoop_tail _ _ (Nat.lt_succ_self _)
    · simp [execAll_length]
    · exact execAll_map_source lua _ _ _ _
  · intro h
    have hloc : locate "# Hi\n\n```script\nprint(\"world\")\n```\n".toList =
        ([⟨"# Hi\n\n".toList, "print(\"world\")\n".toList⟩], "\n".toList) := by decide
    rw [substitute_eq, hloc]
    simp only [List.map_cons, List.map_nil, execAll, assemble, Option.map_some', execBlock,
      (h w (initState lua p.Title) 0).1, (h w (initState lua p.Title) 0).2]
    decide

/-- C1, on the small interpreter: the example body. -/
theorem render_replaces_block_spans_witness :
    ((⟨"Home".toList, "# Hi\n\n```script\nprint(\"world\")\n```\n".toList⟩ : Page).substitute
      Toy.lua []).map (fun r => r.2) = some "# Hi\n\nworld\n".toList :=
  (render_replaces_block_spans Toy.markdown Toy.lua []
    ⟨"Home".toList, "# Hi\n\n```script\nprint(\"world\")\n```\n".toList⟩).2
    (fun _ _ _ => ⟨rfl, rfl⟩)

/-- C2: for every page whose body contains no opening script fence,
`Page.render` returns `markdownToHTML` of the body itself, runs no script and
leaves the world as it was. -/
theorem render_without_fence {W H D : Type} (lib : MarkdownLib D) (lua : Interpreter W H)
    (w : W) (p : Page) (h : ¬ openFence <:+: p.Body) :
    p.render lib lua w = some ⟨markdownToHTML lib p.Body, w, []⟩ ∧
      (p.substitute lua w).map (fun r => r.2) = some p.Body := by
  have hloc := locate_of_none (findMatch_none_of_no_open h)
  simp [Page.render, substitute_eq, hloc, execAll, assemble, endWorld]

/-- C2, on a page without fence. -/
theorem render_without_fence_witness :
    (⟨"Home".toList, "# Hi\n".toList⟩ : Page).render Toy.markdown Toy.lua [] =
        some ⟨"# Hi\n".toList, [], []⟩ ∧
      ((⟨"Home".toList, "# Hi\n".toList⟩ : Page).substitute Toy.lua []).map (fun r => r.2) =
        some "# Hi\n".toList :=
  render_without_fence Toy.markdown Toy.lua [] ⟨"Home".toList, "# Hi\n".toList⟩ (by decide)

/-- C5: in every render the blocks of the body are executed in order and the
text handed on carries each block's result in the place of its span; each run
is the interpreter's execution of the block's source with `print` bound to the
block's own buffer; and a run that returned no error, in which that `print`
received the strings s1, ..., sk in this order, has the result s1 + "\n" + ...
+ s(k-1) + "\n" + sk, which is the text written to the buffer without its last
"\n" (a "\n" that ends sk stays), and the empty result when k = 0.  The buffer
starts empty for each block: the result is made of the strings of this run
alone. -/
theorem block_result_is_printed_lines {W H : Type} (lua : Interpreter W H) (w : W) (p : Page) :
    ∃ st : RenderState W H,
      p.substitute lua w =
        some (st, assemble (locate p.Body).1 (st.log.map Run.result) (locate p.Body).2) ∧
      st.log.map Run.source = (locate p.Body).1.map Block.inner ∧
      ∀ (i : Nat) (run : Run W H), st.log[i]? = some run →
        run.outcome =
            lua.doString run.entryWorld (run.entry.register "print".toList i) run.source ∧
          (run.outcome.err = none →
            (run.outcome.written = [] → run.result = []) ∧
            (∀ ws s, run.outcome.written = ws ++ [s] →
              run.result = (ws.map (· ++ ['\n'])).flatten ++ s) ∧
            (run.outcome.written ≠ [] →
              run.result ++ ['\n'] = (run.outcome.written.map (· ++ ['\n'])).flatten)) := by
  refine ⟨_, substitute_eq lua w p, execAll_map_source lua _ _ _ _, ?_⟩
  intro i run hrun
  have hr := execAll_getElem? lua _ _ _ _ i run hrun
  rw [Nat.zero_add] at hr
  constructor
  · conv => lhs; rw [hr]
    rfl
  · intro hok
    have hres := execBlock_result_ok lua i run.entryWorld run.entry run.source
      (by rw [← hr]; exact hok)
    rw [← hr] at hres
    refine ⟨hres.1, hres.2, ?_⟩
    intro hw
    obtain ⟨ws, s, hws⟩ : ∃ ws s, run.outcome.written = ws ++ [s] :=
      ⟨run.outcome.written.dropLast, run.outcome.written.getLast hw,
        (List.dropLast_append_getLast hw).symm⟩
    rw [hres.2 ws s hws, hws]
    simp

/-- C5, on the small interpreter: a block that prints "a" and then "b" is
replaced by "a\nb". -/
theorem block_result_is_printed_lines_witness :
    ((⟨"T".toList, "x```script\nprint(\"a\")\nprint(\"b\")\n```y".toList⟩ : Page).substitute
      Toy.lua []).map (fun r => r.2) = some "xa\nby".toList := by
  obtain ⟨st, h, hsrc, hall⟩ := block_result_is_printed_lines Toy.lua []
    ⟨"T".toList, "x```script\nprint(\"a\")\nprint(\"b\")\n```y".toList⟩
  have hloc : locate "x```script\nprint(\"a\")\nprint(\"b\")\n```y".toList =
      ([⟨"x".toList, "print(\"a\")\nprint(\"b\")\n".toList⟩], "y".toList) := by decide
  simp only [hloc, List.map_cons, List.map_nil] at h hsrc
  obtain ⟨run, hlog⟩ := List.length_eq_one.mp
    (by simpa using congrArg List.length hsrc : st.log.length = 1)
  rw [h, hlog]
  rw [hlog] at hsrc
  simp only [List.map_cons, List.map_nil, List.cons.injEq, and_true] at hsrc
  obtain ⟨hout, hok⟩ := hall 0 run (by rw [hlog]; rfl)
  rw [hsrc] at hout
  have herr : run.outcome.err = none := by rw [hout]; rfl
  have hw : run.outcome.written = ["a".toList] ++ ["b".toList] := by rw [hout]; rfl
  have hres := (hok herr).2.1 _ _ hw
  simp only [List.map_cons, List.map_nil, assemble, Option.map_some', hres]
  decide

/-- C6: in every render all the blocks of the body are executed in order, each
run being the interpreter's execution of the block's source, each result
standing in the place of the block's span between the texts of the body around
the spans; and a run whose execution returned the error e has the result
"Error executing script: " followed by e, whatever it printed before. -/
theorem failed_block_is_local {W H : Type} (lua : Interpreter W H) (w : W) (p : Page) :
    ∃ st : RenderState W H,
      p.substitute lua w =
        some (st, assemble (locate p.Body).1 (st.log.map Run.result) (locate p.Body).2) ∧
      st.log.map Run.source = (locate p.Body).1.map Block.inner ∧
      p.Body = assemble (locate p.Body).1 ((locate p.Body).1.map Block.span) (locate p.Body).2 ∧
      ∀ (i : Nat) (run : Run W H), st.log[i]? = some run →
        run.outcome =
            lua.doString run.entryWorld (run.entry.register "print".toList i) run.source ∧
          ∀ e, run.outcome.err = some e →
            run.result = "Error executing script: ".toList ++ e := by
  refine ⟨_, substitute_eq lua w p, execAll_map_source lua _ _ _ _,
    (locateLoop_assemble _ _).symm, ?_⟩
  intro i run hrun
  have hr := execAll_getElem? lua _ _ _ _ i run hrun
  rw [Nat.zero_add] at hr
  constructor
  · conv => lhs; rw [hr]
    rfl
  · intro e he
    have := execBlock_result_err lua i run.entryWorld run.entry run.source e
      (by rw [← hr]; exact he)
    rw [← hr] at this
    exact this

/-- C6, on the small interpreter: a block that prints and then fails is replaced
by the error text alone, and the text around it stays. -/
theorem failed_block_is_local_witness :
    ((⟨"T".toList, "x```script\nprint(\"a\")\nfoo()\n```y".toList⟩ : Page).substitute
      Toy.lua []).map (fun r => r.2) =
      some "xError executing script: syntax errory".toList := by
  obtain ⟨st, h, hsrc, -, hall⟩ := failed_block_is_local Toy.lua []
    ⟨"T".toList, "x```script\nprint(\"a\")\nfoo()\n```y".toList⟩
  have hloc : locate "x```script\nprint(\"a\")\nfoo()\n```y".toList =
      ([⟨"x".toList, "print(\"a\")\nfoo()\n".toList⟩], "y".toList) := by decide
  simp only [hloc, List.map_cons, List.map_nil] at h hsrc
  obtain ⟨run, hlog⟩ := List.length_eq_one.mp
    (by simpa using congrArg List.length hsrc : st.log.length = 1)
  rw [h, hlog]
  rw [hlog] at hsrc
  simp only [List.map_cons, List.map_nil, List.cons.injEq, and_true] at hsrc
  obtain ⟨hout, herr⟩ := hall 0 run (by rw [hlog]; rfl)
  rw [hsrc] at hout
  have he : run.outcome.err = some "syntax error".toList := by rw [hout]; rfl
  have hres := herr _ he
  simp only [List.map_cons, List.map_nil, assemble, Option.map_some', hres]
  decide

/-- C7: in every render the blocks are executed in document order against one
interpreter state: the runs are those of the inner sources of the located
blocks in order, the first run is entered in the state built in lines 38-62, in
which the global `page` has the field `title` equal to the page's Title, each
next run is entered in exactly the world and the state that the run before left
(whether it failed or not), and in each run the interpreter executes the source
in the state of entry with `print` bound to the block's own buffer. -/
theorem blocks_share_one_state {W H : Type} (lua : Interpreter W H) (w : W) (p : Page) :
    ∃ st out, p.substitute lua w = some (st, out) ∧
      st.log.map Run.source = (locate p.Body).1.map Block.inner ∧
      Chained w (initState lua p.Title) st.log ∧
      st.world = endWorld w st.log ∧
      st.lstate = endLState (initState lua p.Title) st.log ∧
      (∀ (i : Nat) (run : Run W H), st.log[i]? = some run →
        run.outcome =
          lua.doString run.entryWorld (run.entry.register "print".toList i) run.source) ∧
      ((initState lua p.Title).global "page".toList).bind (LValue.field "title".toList) =
        some (.str p.Title) := by
  refine ⟨_, _, substitute_eq lua w p, execAll_map_source lua _ _ _ _,
    execAll_chained lua _ _ _ _, rfl, rfl, ?_, initState_page_title lua p.Title⟩
  intro i run hrun
  have hr := execAll_getElem? lua _ _ _ _ i run hrun
  rw [Nat.zero_add] at hr
  conv => lhs; rw [hr]
  rfl

/-- C9: over an explicit file store and a pages directory, for every title and
body, a successful save writes the body to the file named directory, separator,
title, ".md" and changes no other file, and the following load of the title
returns the page with this title and this body; and for every title, a load
whose file cannot be read returns an error and no page. -/
theorem save_then_load (env : Environment) (fs fs1 : FileStore) (p : Page)
    (h : p.save env fs = .ok fs1) :
    fs1.files (env.PagesDirectory ++ [fs.pathSeparator] ++ p.Title ++ ".md".toList) =
        some p.Body ∧
      (∀ name, name ≠ env.PagesDirectory ++ [fs.pathSeparator] ++ p.Title ++ ".md".toList →
        fs1.files name = fs.files name) ∧
      loadPage env fs1 p.Title = .ok ⟨p.Title, p.Body⟩ ∧
      (∀ (fs2 : FileStore) (title : Text),
        (∃ e, fs2.readFile (env.PagesDirectory ++ [fs2.pathSeparator] ++ title ++ ".md".toList) =
            .error e) →
          ∃ e, loadPage env fs2 title = .error e) := by
  have hload : ∀ (fs2 : FileStore) (title : Text),
      (∃ e, fs2.readFile (env.PagesDirectory ++ [fs2.pathSeparator] ++ title ++ ".md".toList) =
          .error e) → ∃ e, loadPage env fs2 title = .error e := by
    rintro fs2 title ⟨e, he⟩
    refine ⟨e, ?_⟩
    simp only [loadPage]
    rw [he]
  have hsep : fs1.pathSeparator = fs.pathSeparator := by
    simp only [Page.save, FileStore.writeFile] at h
    split at h
    · cases h
    · cases h; rfl
  simp only [loadPage, hsep]
  simp only [Page.save, FileStore.writeFile] at h
  generalize env.PagesDirectory ++ [fs.pathSeparator] ++ p.Title ++ ".md".toList = fn at h ⊢
  split at h
  · cases h
  · cases h
    refine ⟨by simp, ?_, by simp [FileStore.readFile], hload⟩
    intro name hname
    simp [hname]

/-- C9, on an empty store. -/
theorem save_then_load_witness :
    loadPage Env
        { files := fun n => if n = "./Home.md".toList then some "# Hi\n".toList else none,
          denied := fun _ => false, pathSeparator := '/' } "Home".toList =
      .ok ⟨"Home".toList, "# Hi\n".toList⟩ :=
  (save_then_load Env ⟨fun _ => none, fun _ => false, '/'⟩
    { files := fun n => if n = "./Home.md".toList then some "# Hi\n".toList else none,
      denied := fun _ => false, pathSeparator := '/' }
    ⟨"Home".toList, "# Hi\n".toList⟩ rfl).2.2.1

/-- C10: every match m that the search finds in a text has the form opening
delimiter, inner, triple delimiter, where inner contains no triple delimiter
and the closing delimiter is the first triple delimiter after the opening line;
the pattern applied to m alone matches all of m and captures inner, so element
1 of the slice exists and the callback executes inner; and a render never
fails, the sources it executes being the inner texts of the located blocks. -/
theorem located_match_matches_alone (s pre : Text) (m : Match)
    (h : findMatch scriptRe s = some (pre, m)) :
    (∃ inner, s = pre ++ m.whole ++ m.rest ∧ m.whole = openFence ++ inner ++ fence ∧
      m.groups = [inner] ∧ ¬ fence <:+: inner ∧ FirstAt fence inner m.rest ∧
      findMatch scriptRe m.whole = some ([], ⟨m.whole, [inner], []⟩) ∧
      findStringSubmatch scriptRe m.whole = [m.whole, inner] ∧
      (findStringSubmatch scriptRe m.whole)[1]? = some inner ∧
      ∀ (W H : Type) (lua : Interpreter W H) (st : RenderState W H),
        callback lua st m.whole = some (runBlock lua st inner)) ∧
    (∀ (W H : Type) (lua : Interpreter W H) (w : W) (p : Page),
      ∃ r, p.substitute lua w = some r ∧
        r.1.log.map Run.source = (locate p.Body).1.map Block.inner) := by
  constructor
  · obtain ⟨inner, hs, hw, hg, hf, -⟩ := findMatch_eq_some h
    have hsub := findStringSubmatch_span inner m.rest hf
    refine ⟨inner, ?_, hw, hg, hf.absent (by decide), hf, ?_, ?_, ?_, ?_⟩
    · rw [hs, hw]; simp
    · have h1 := matchAt_scriptRe_of_first inner [] (hf.indep [])
      simp only [List.append_nil] at h1
      rw [hw]
      exact scan_of_some _ _ _ h1
    · rw [hw]; exact hsub
    · rw [hw, hsub]; rfl
    · intro W H lua st
      rw [hw]
      exact callback_span lua st inner m.rest hf
  · intro W H lua w p
    exact ⟨_, substitute_eq lua w p, execAll_map_source lua _ _ _ _⟩

/-- C10, on a match in the middle of a line. -/
theorem located_match_matches_alone_witness :
    (findStringSubmatch scriptRe "```script\ny```".toList)[1]? = some "y".toList := by
  obtain ⟨inner, -, hw, hg, -, -, -, -, h1, -⟩ :=
    (located_match_matches_alone "x```script\ny```z".toList "x".toList
      ⟨"```script\ny```".toList, ["y".toList], "z".toList⟩ (by decide)).1
  simp only [List.cons.injEq, and_true] at hg
  rw [← hg] at h1
  exact h1

/-- C3 as stated fails on the body "x```script\ny```z": the locator matches the
block with inner source "y", although its opening delimiter follows "x" on the
same line, its closing delimiter follows "y" on the same line and is followed
by "z". -/
theorem fence_mid_line_is_matched :
    locate "x```script\ny```z".toList = ([⟨"x".toList, "y".toList⟩], "z".toList) ∧
      ¬ AtLineStart "x".toList ∧ ¬ AtLineStart "x```script\ny".toList ∧
      ¬ AtLineEnd "z".toList := by
  decide

/-- C3 amended: every block the locator matches begins with the triple
delimiter followed by the tag `script` and a line end, and ends with the first
triple delimiter after that line end (the inner source contains none); the
position on the line is free: whenever the text before the opening delimiter
and the inner source contain no delimiter character, the block is matched
whatever precedes the opening delimiter and whatever follows the closing one. -/
theorem located_block_delimiters (body : Text) :
    body = assemble (locate body).1 ((locate body).1.map Block.span) (locate body).2 ∧
    (∀ b ∈ (locate body).1,
      b.span = fence ++ "script\n".toList ++ b.inner ++ fence ∧
        ¬ fence <:+: b.inner ∧ ∀ r, FirstAt fence b.inner r) ∧
    (∀ pre inner post : Text, tick ∉ pre → tick ∉ inner →
      locate (pre ++ openFence ++ inner ++ fence ++ post) =
        (⟨pre, inner⟩ :: (locate post).1, (locate post).2)) := by
  refine ⟨(locateLoop_assemble _ _).symm, ?_, ?_⟩
  · intro b hb
    have hf := locateLoop_firstAt _ _ b hb
    exact ⟨rfl, (hf []).absent (by decide), hf⟩
  · intro pre inner post hpre hinner
    have h := findMatch_of_first pre inner post (firstAt_of_not_mem inner post hinner)
      (noEarlier_of_not_mem pre _ hpre)
    have h2 := locate_of_some h
    simp only [List.headD_cons] at h2
    rw [← h2]
    simp

/-- C4 as stated fails on the body "```script\nx = \"1\"\n```script\nprint(x)\n":
no triple delimiter follows the second opening fence line, yet its delimiter
closes the first block, and the text from that opening to the end of the body
does not reach the markup renderer unchanged. -/
theorem unterminated_opening_is_consumed :
    ¬ fence <:+: "print(x)\n".toList ∧
    locate ("```script\nx = \"1\"\n".toList ++ openFence ++ "print(x)\n".toList) =
      ([⟨[], "x = \"1\"\n".toList⟩], "script\nprint(x)\n".toList) ∧
    ((⟨"T".toList, "```script\nx = \"1\"\n".toList ++ openFence ++ "print(x)\n".toList⟩ :
      Page).substitute Toy.lua []).map (fun r => r.2) = some "script\nprint(x)\n".toList ∧
    ¬ (openFence ++ "print(x)\n".toList) <:+ "script\nprint(x)\n".toList := by
  decide

/-- C4 amended: when no triple delimiter occurs after an opening fence and the
text that the locator leaves unmatched before that opening contains no opening
fence (every block opened before is closed before it), the locator finds in the
body exactly the blocks of the text before the opening; the render executes
exactly what it executes for that text, and the text from the opening fence to
the end of the body follows unchanged. -/
theorem unterminated_block_left_alone {W H : Type} (lua : Interpreter W H) (w : W)
    (title pre tail : Text) (h1 : ¬ fence <:+: tail) (h2 : ¬ openFence <:+: (locate pre).2) :
    locate (pre ++ openFence ++ tail) = ((locate pre).1, (locate pre).2 ++ openFence ++ tail) ∧
    (⟨title, pre ++ openFence ++ tail⟩ : Page).substitute lua w =
      ((⟨title, pre⟩ : Page).substitute lua w).map
        (fun r => (r.1, r.2 ++ openFence ++ tail)) := by
  have hnone := findMatch_none_open_tail (locate pre).2 tail h2 h1
  have hloc : locate (pre ++ openFence ++ tail) =
      ((locate pre).1, (locate pre).2 ++ openFence ++ tail) := by
    have := locate_append (openFence ++ tail) (pre.length + 1) pre (Nat.lt_succ_self _) hnone
    simpa [locate] using this
  refine ⟨hloc, ?_⟩
  rw [substitute_eq, substitute_eq]
  simp only [hloc, Option.map_some']
  rw [List.append_assoc, assemble_append, List.append_assoc]

/-- C4 amended, on a body whose only complete block precedes the opening. -/
theorem unterminated_block_left_alone_witness :
    (⟨"T".toList, "a```script\nprint(\"b\")\n```c".toList ++ openFence ++ "print(x)\n".toList⟩ :
        Page).substitute Toy.lua [] =
      ((⟨"T".toList, "a```script\nprint(\"b\")\n```c".toList⟩ : Page).substitute Toy.lua []).map
        (fun r => (r.1, r.2 ++ openFence ++ "print(x)\n".toList)) :=
  (unterminated_block_left_alone Toy.lua [] "T".toList "a```script\nprint(\"b\")\n```c".toList
    "print(x)\n".toList (by decide) (by decide)).2

/-- C8 as stated fails on the small interpreter, whose scripts reach the files
as those of the opened `io` and `os` libraries do: rendered in a world where
the file f exists, page Q prints "y"; rendered after page P, whose script
removes f, it prints "n"; and so it does when the two calls run alongside each
other and the block of P is executed before the block of Q. -/
theorem render_depends_on_earlier_render :
    ((⟨"Q".toList, "```script\nprint(io.open(\"f\") and \"y\" or \"n\")\n```".toList⟩ :
        Page).render Toy.markdown Toy.lua ["f".toList]).map (fun r => r.html) =
      some "y".toList ∧
    (((⟨"P".toList, "```script\nos.remove(\"f\")\n```".toList⟩ : Page).render Toy.markdown
        Toy.lua ["f".toList]).bind fun r0 =>
      (⟨"Q".toList, "```script\nprint(io.open(\"f\") and \"y\" or \"n\")\n```".toList⟩ :
        Page).render Toy.markdown Toy.lua r0.world).map (fun r => r.html) =
      some "n".toList ∧
    (interleave Toy.lua [true, false] ["f".toList]
        (Call.start Toy.lua ⟨"P".toList, "```script\nos.remove(\"f\")\n```".toList⟩)
        (Call.start Toy.lua
          ⟨"Q".toList, "```script\nprint(io.open(\"f\") and \"y\" or \"n\")\n```".toList⟩)).2.2.text =
      "n".toList := by
  decide

/-- C8 amended: every call of `Page.render` creates its own interpreter state
and shares none with any other call.  A call that does all the rounds of its
replacement loop with no other call in between is `Page.substitute`, and its
runs start from the state built from the page's Title.  For every two pages P
and Q whose calls run alongside each other, under every schedule of their
rounds, each call keeps its own state: its runs form a chain of Lua states from
the state built from its own Title, each run executing the block's source in
the state the call's own previous run left, so no global bound while rendering
P is visible while rendering Q.  For an interpreter whose runs do not depend on
the world outside the process, the output of rendering Q is the same whether or
not P was rendered before it or alongside it: it is the same in every world,
and under every schedule the text Q's call ends with is the text of Q rendered
alone, a function of Q's Title and Body alone. -/
theorem render_builds_fresh_state {W H D : Type} (lib : MarkdownLib D) (lua : Interpreter W H) :
    (∀ (w : W) (a : Call W H) (p : Page), ∃ w1 c,
      interleave lua (List.replicate (p.Body.length + 1) false) w a (Call.start lua p) =
        (w1, a, c) ∧
      findMatch scriptRe c.src = none ∧
      p.substitute lua w = some (⟨w1, c.lstate, c.log⟩, c.text) ∧
      Chained w (initState lua p.Title) c.log) ∧
    (∀ (sch : List Bool) (w : W) (p q : Page),
      OwnState lua p.Title (interleave lua sch w (Call.start lua p) (Call.start lua q)).2.1 ∧
      OwnState lua q.Title (interleave lua sch w (Call.start lua p) (Call.start lua q)).2.2) ∧
    ((∀ (w w1 : W) (l : LState H) (s : Text),
        (lua.doString w l s).lstate = (lua.doString w1 l s).lstate ∧
        (lua.doString w l s).written = (lua.doString w1 l s).written ∧
        (lua.doString w l s).err = (lua.doString w1 l s).err) →
      (∀ (w w1 : W) (p : Page),
        (p.render lib lua w).map (fun r => r.html) =
          (p.render lib lua w1).map (fun r => r.html)) ∧
      (∀ (sch : List Bool) (w w1 : W) (p q : Page),
        Call.finish lua w1 (interleave lua sch w (Call.start lua p) (Call.start lua q)).2.1 =
            (p.substitute lua w1).map (fun r => r.2) ∧
          Call.finish lua w1 (interleave lua sch w (Call.start lua p) (Call.start lua q)).2.2 =
            (q.substitute lua w1).map (fun r => r.2)) ∧
      (∀ (sch : List Bool) (w w1 : W) (p q : Page),
        findMatch scriptRe
            (interleave lua sch w (Call.start lua p) (Call.start lua q)).2.2.src = none →
          some (interleave lua sch w (Call.start lua p) (Call.start lua q)).2.2.text =
            (q.substitute lua w1).map (fun r => r.2))) := by
  have hstart : ∀ (w1 : W) (p : Page),
      Call.finish lua w1 (Call.start lua p) = (p.substitute lua w1).map (fun r => r.2) := by
    intro w1 p
    simp [Call.finish, Call.start, Page.substitute]
  refine ⟨?_, ?_, ?_⟩
  · intro w a p
    obtain ⟨w1, c, hi, hnone, hrep⟩ := interleave_alone lua a (p.Body.length + 1)
      (Call.start lua p) w (Nat.lt_succ_self _)
    have hsub : p.substitute lua w = some (⟨w1, c.lstate, c.log⟩, c.text) := by
      simp only [Call.start, List.nil_append] at hrep
      simp only [Page.substitute, replaceAllStringFunc, Call.text]
      cases hr : replaceAllLoop scriptRe (callback lua) (p.Body.length + 1) p.Body
          ⟨w, initState lua p.Title, []⟩ with
      | none => rw [hr] at hrep; simp at hrep
      | some r =>
        rw [hr] at hrep
        simpa using hrep
    refine ⟨w1, c, hi, hnone, hsub, ?_⟩
    have heq := substitute_eq lua w p
    rw [hsub] at heq
    simp only [Option.some.injEq, Prod.mk.injEq, RenderState.mk.injEq] at heq
    rw [heq.1.2.2]
    exact execAll_chained lua _ _ _ _
  · intro sch w p q
    exact interleave_inv lua (OwnState lua p.Title) (OwnState lua q.Title)
      (fun w c h => ownState_step lua p.Title w c h)
      (fun w c h => ownState_step lua q.Title w c h) sch w _ _
      (ownState_start lua p) (ownState_start lua q)
  · intro hpure
    have hfin : ∀ (sch : List Bool) (w w1 : W) (p q : Page),
        Call.finish lua w1 (interleave lua sch w (Call.start lua p) (Call.start lua q)).2.1 =
            (p.substitute lua w1).map (fun r => r.2) ∧
          Call.finish lua w1 (interleave lua sch w (Call.start lua p) (Call.start lua q)).2.2 =
            (q.substitute lua w1).map (fun r => r.2) := by
      intro sch w w1 p q
      exact interleave_inv lua
        (fun c => Call.finish lua w1 c = (p.substitute lua w1).map (fun r => r.2))
        (fun c => Call.finish lua w1 c = (q.substitute lua w1).map (fun r => r.2))
        (fun w c h => (finish_step lua hpure w w1 c).trans h)
        (fun w c h => (finish_step lua hpure w w1 c).trans h) sch w _ _
        (hstart w1 p) (hstart w1 q)
    refine ⟨?_, hfin, ?_⟩
    · intro w w1 p
      simp only [Page.render, substitute_eq, Option.map_some']
      rw [execAll_result_indep lua hpure _ 0 w w1]
    · intro sch w w1 p q hnone
      rw [← (hfin sch w w1 p q).2, finish_eq, locate_of_none hnone]
      simp [assemble, execAll, Call.text]

/-- C8 amended, on the small interpreter cut off from the files: the call of the
page that probes the file f, run alongside the call of the page that removes f,
ends with the text it gives alone. -/
theorem render_builds_fresh_state_witness :
    some (interleave (Toy.lua.closed ["f".toList]) [true, false] ["f".toList]
        (Call.start (Toy.lua.closed ["f".toList])
          ⟨"P".toList, "```script\nos.remove(\"f\")\n```".toList⟩)
        (Call.start (Toy.lua.closed ["f".toList])
          ⟨"Q".toList,
            "```script\nprint(io.open(\"f\") and \"y\" or \"n\")\n```".toList⟩)).2.2.text =
      ((⟨"Q".toList, "```script\nprint(io.open(\"f\") and \"y\" or \"n\")\n```".toList⟩ :
        Page).substitute (Toy.lua.closed ["f".toList]) []).map (fun r => r.2) :=
  ((render_builds_fresh_state Toy.markdown (Toy.lua.closed ["f".toList])).2.2
    (fun _ _ _ _ => ⟨rfl, rfl, rfl⟩)).2.2 [true, false] ["f".toList] [] _ _ (by decide)

/-! ## An example render on the small interpreter -/

/-- On the small interpreter: the second block reads the global that the first
one bound and the title of the page, the third block fails and its failure
stays in its place. -/
theorem example_render :
    ((⟨"T".toList,
        "a```script\nx = \"v\"\n```b```script\nprint(x)\nprint(page.title)\n```c```script\nfoo()\n```d".toList⟩ :
      Page).render Toy.markdown Toy.lua []).map (fun r => r.html) =
      some "abv\nTcError executing script: syntax errord".toList := by
  decide
end Wiggly
